import Mathlib

/-!
Verification of the Knowledge-Graph RAG ingestion pipeline.

This file gives a shallow embedding of the core pipeline of the repository
(text cleaning, entity/relation extraction plumbing, canonicalization,
relation validation, batched graph writing, orchestration and retrieval)
and proves or refutes the specification claims about it.

Python dictionaries with a fixed set of keys are embedded as structures;
free-form property dictionaries are embedded as association lists
(`Props`).  A dictionary key that may be absent is embedded as an
`Option` field; indexing a missing key (Python `KeyError`) is embedded
as an `Except.error` result.  The Neo4j store is embedded as an explicit
graph state (node list + edge list) on which the Cypher `MERGE` / `MATCH` /
`SET` operations performed by the code act as pure functions.
-/

set_option autoImplicit false

namespace KGRag

/-! ## Free-form property maps (Python dicts of string properties) -/

/-- A free-form property map, embedding a Python `dict` used as a
property bag.  Keys are unique by construction of the update operations
used on it, but uniqueness is not assumed. -/
abbrev Props := List (String × String)

/-- Lookup of `d[k]` returning `none` when the key is missing
(first matching entry wins, as in a dict with unique keys). -/
def lookupProp (ps : Props) (k : String) : Option String :=
  match ps with
  | [] => none
  | (k', v) :: rest => if k' = k then some v else lookupProp rest k

/-- Python `d[k] = v`: overwrite the entry in place if present, else append. -/
def upsertProp (ps : Props) (k v : String) : Props :=
  if ps.any (fun p => p.1 = k) then
    ps.map (fun p => if p.1 = k then (k, v) else p)
  else ps ++ [(k, v)]

/-- Python `d.update(q)` / Cypher `SET n += q`: fold the entries of `q`
into `ps`, later entries overwriting earlier ones on key collision. -/
def overlayProps (ps q : Props) : Props :=
  q.foldl (fun acc kv => upsertProp acc kv.1 kv.2) ps

/-! ## Text cleaner (`app/utils/text_cleaner.py`, `clean_text`)

The three `re.sub` passes and the final `strip()` are embedded as list
transformations over the characters of the string.  The regex character
classes are embedded over their ASCII fragment: `\s` as `isWsChar`,
`\w` as `isWordChar`. -/

/-- The regex class `\s` (whitespace), ASCII fragment. -/
def isWsChar (c : Char) : Bool :=
  c = ' ' || c = '\t' || c = '\n' || c = '\r' || c = Char.ofNat 11 || c = Char.ofNat 12

/-- The regex class `\w` (word characters): alphanumerics and underscore. -/
def isWordChar (c : Char) : Bool := c.isAlphanum || c = '_'

/-- The punctuation kept by the second pass: the class `[.,!?;:()\-']`. -/
def isKeptPunct (c : Char) : Bool :=
  c = '.' || c = ',' || c = '!' || c = '?' || c = ';' || c = ':' ||
  c = '(' || c = ')' || c = '-' || c = Char.ofNat 39

/-- A character surviving the removal pass `re.sub(r"[^\w\s.,!?;:()\-']", '')`. -/
def keepChar (c : Char) : Bool := isWordChar c || isWsChar c || isKeptPunct c

/-- First pass `re.sub(r'\s+', ' ', text)`: every maximal run of
whitespace becomes a single space (the run is rewritten when its last
character is reached). -/
def collapseWs : List Char → List Char
  | [] => []
  | [c] => if isWsChar c then [' '] else [c]
  | c :: d :: r =>
    if isWsChar c then
      (if isWsChar d then collapseWs (d :: r) else ' ' :: collapseWs (d :: r))
    else c :: collapseWs (d :: r)

/-- The class `[.,!?;:]` of the third pass. -/
def isDupPunct (c : Char) : Bool :=
  c = '.' || c = ',' || c = '!' || c = '?' || c = ';' || c = ':'

/-- Third pass `re.sub(r'([.,!?;:])\1+', r'\1', text)`: every maximal run
of two or more copies of the same punctuation character becomes one copy. -/
def collapseDup : List Char → List Char
  | [] => []
  | [c] => [c]
  | c :: d :: r =>
    if isDupPunct c then
      (if d = c then collapseDup (d :: r) else c :: collapseDup (d :: r))
    else c :: collapseDup (d :: r)

/-- Python `str.strip()`: drop whitespace from both ends. -/
def stripChars (l : List Char) : List Char :=
  ((l.dropWhile isWsChar).reverse.dropWhile isWsChar).reverse

/-- The character-list core of `clean_text`. -/
def cleanL (l : List Char) : List Char :=
  stripChars (collapseDup ((collapseWs l).filter keepChar))

/-- `clean_text` from `app/utils/text_cleaner.py`: collapse whitespace,
remove disallowed characters, collapse repeated punctuation, strip. -/
def clean_text (s : String) : String :=
  String.mk (cleanL s.data)

/-- All characters of a list survive the removal pass. -/
abbrev AllKept (l : List Char) : Prop := ∀ c ∈ l, keepChar c = true

/-- No two adjacent whitespace characters. -/
abbrev NoWsPair (l : List Char) : Prop :=
  List.Chain' (fun a b => isWsChar a = false ∨ isWsChar b = false) l

/-- No two adjacent equal copies of a `[.,!?;:]` character. -/
abbrev NoDupPair (l : List Char) : Prop :=
  List.Chain' (fun a b => isDupPunct a = false ∨ b ≠ a) l

/-- Every whitespace character in the list is a plain space. -/
abbrev WsIsSpace (l : List Char) : Prop := ∀ c ∈ l, isWsChar c = true → c = ' '

/-- Neither end of the list is whitespace. -/
abbrev StrippedEnds (l : List Char) : Prop :=
  (∀ c ∈ l.head?, isWsChar c = false) ∧ (∀ c ∈ l.getLast?, isWsChar c = false)

/-! ## Extraction results (`app/utils/kg_builder.py`, `app/utils/pipeline.py`)

An extraction result is the parsed JSON object produced for one chunk:
`(entities, relations)` plus the `chunk_id` attached by
`extract_from_chunks`.  Entity dicts always carry `name` and `type`
(the extractor prompt fixes them and the code indexes them directly);
relation dicts may lack `source`, `target` or `type`, which is embedded
with `Option` fields (`none` = missing key). -/

structure Entity where
  name : String
  type : String
  props : Props
deriving DecidableEq, Inhabited

structure Relation where
  source : Option String
  target : Option String
  type : Option String
  props : Props
deriving DecidableEq, Inhabited

structure ExtractionResult where
  chunk_id : Option String
  entities : List Entity
  relations : List Relation
deriving DecidableEq, Inhabited

/-- Python `name.lower().strip()` (ASCII fragment of `lower`). -/
def normName (s : String) : String :=
  String.mk (stripChars (s.data.map Char.toLower))

/-- Insert a key only if absent: first-seen value wins
(`if norm_name not in entity_map: entity_map[norm_name] = ...`). -/
def insertIfAbsent (m : Props) (k v : String) : Props :=
  if (lookupProp m k).isSome then m else m ++ [(k, v)]

/-- Rewrite a name through the canonical map if its normalized form is
present, else leave it unchanged. -/
def canonName (m : Props) (s : String) : String :=
  match lookupProp m (normName s) with
  | some c => c
  | none => s

/-! ## Stage 4: `DocumentPipeline.canonicalize_entities` -/

/-- The entity loop of `canonicalize_entities` for one result: thread the
`entity_map` and rewrite each entity name to its canonical value. -/
def canonEnts (m : Props) : List Entity → Props × List Entity
  | [] => (m, [])
  | e :: rest =>
    let m1 := insertIfAbsent m (normName e.name) e.name
    let e' := { e with name := canonName m1 e.name }
    let p := canonEnts m1 rest
    (p.1, e' :: p.2)

/-- The relation rewrite of `canonicalize_entities`: `rel["source"]` and
`rel["target"]` are indexed directly, so a missing key raises `KeyError`. -/
def canonRelStep (m : Props) (r : Relation) : Except String Relation :=
  match r.source with
  | none => .error "KeyError: source"
  | some s =>
    match r.target with
    | none => .error "KeyError: target"
    | some t => .ok { r with source := some (canonName m s), target := some (canonName m t) }

/-- The relation loop of `canonicalize_entities` for one result. -/
def canonRels (m : Props) : List Relation → Except String (List Relation)
  | [] => .ok []
  | r :: rest => do
    let r' ← canonRelStep m r
    let out ← canonRels m rest
    .ok (r' :: out)

/-- One iteration of the outer loop of `canonicalize_entities`: entities
first (extending the map), then relations through the extended map. -/
def canonResultStep (m : Props) (res : ExtractionResult) : Except String (Props × ExtractionResult) := do
  let rels ← canonRels (canonEnts m res.entities).1 res.relations
  .ok ((canonEnts m res.entities).1,
    { res with entities := (canonEnts m res.entities).2, relations := rels })

/-- The outer loop of `canonicalize_entities`, threading the entity map. -/
def canonAux (m : Props) : List ExtractionResult → Except String (List ExtractionResult)
  | [] => .ok []
  | res :: rest => do
    let p ← canonResultStep m res
    let out ← canonAux p.1 rest
    .ok (p.2 :: out)

/-- `DocumentPipeline.canonicalize_entities` from `app/utils/pipeline.py`. -/
def canonicalize_entities (rs : List ExtractionResult) : Except String (List ExtractionResult) :=
  canonAux [] rs

/-! ### Reference formulation of canonicalization (from the spec text) -/

/-- The first-seen canonical-name map of a list of entities, extending `m`. -/
def entityMapOf (m : Props) : List Entity → Props
  | [] => m
  | e :: rest => entityMapOf (insertIfAbsent m (normName e.name) e.name) rest

/-- The canonical-name map accumulated over the entities of a batch of
extraction results, extending `m`. -/
def batchFrom (m : Props) : List ExtractionResult → Props
  | [] => m
  | res :: rest => batchFrom (entityMapOf m res.entities) rest

/-- The full first-seen canonical map of a batch, in iteration order. -/
def batchEntityMap (rs : List ExtractionResult) : Props := batchFrom [] rs

/-- Reference per-result canonicalization: entity names and relation
endpoints are rewritten through the map extended by this result's own
entities (entities of later results are not yet in the map). -/
def canonStepRef (m : Props) (res : ExtractionResult) : Props × ExtractionResult :=
  (entityMapOf m res.entities, { res with
    entities := res.entities.map (fun e =>
      { e with name := canonName (entityMapOf m res.entities) e.name }),
    relations := res.relations.map (fun r =>
      { r with source := r.source.map (canonName (entityMapOf m res.entities)),
               target := r.target.map (canonName (entityMapOf m res.entities)) }) })

/-- Reference canonicalization of a whole batch. -/
def canonRefAux (m : Props) : List ExtractionResult → List ExtractionResult
  | [] => []
  | res :: rest =>
    (canonStepRef m res).2 :: canonRefAux (canonStepRef m res).1 rest

/-- One map extends another (all present keys keep their values). -/
def MapExtends (m m' : Props) : Prop :=
  ∀ k v, lookupProp m k = some v → lookupProp m' k = some v

/-- Well-formedness of relation dicts: both endpoint keys are present.
This is the implicit precondition of claim C10. -/
abbrev RelationsWF (rs : List ExtractionResult) : Prop :=
  ∀ res ∈ rs, ∀ r ∈ res.relations, r.source.isSome = true ∧ r.target.isSome = true

/-! ## Stage 5: `DocumentPipeline.validate_relations` -/

/-- Validation of one relation dict, mirroring the loop body:
`not rel["source"]` is evaluated first (raising on a missing source and
short-circuiting `or`, so a falsy source never reads the target), then
`not rel["target"]`, then the self-loop check, then the fallback type. -/
def validateRel (r : Relation) : Except String (Option Relation) :=
  match r.source with
  | none => .error "KeyError: source"
  | some s =>
    if s = "" then .ok none
    else match r.target with
      | none => .error "KeyError: target"
      | some t =>
        if t = "" then .ok none
        else if s = t then .ok none
        else
          let ty := match r.type with
            | some ty => if ty = "" then "RELATED_TO" else ty
            | none => "RELATED_TO"
          .ok (some { r with type := some ty })

/-- The relation loop of `validate_relations` for one result. -/
def validateRels : List Relation → Except String (List Relation)
  | [] => .ok []
  | r :: rest => do
    match ← validateRel r with
    | some r' => do
      let out ← validateRels rest
      .ok (r' :: out)
    | none => validateRels rest

/-- `DocumentPipeline.validate_relations` from `app/utils/pipeline.py`:
filter each result's relations, leaving entities untouched. -/
def validate_relations : List ExtractionResult → Except String (List ExtractionResult)
  | [] => .ok []
  | res :: rest => do
    let vrels ← validateRels res.relations
    let out ← validate_relations rest
    .ok ({ res with relations := vrels } :: out)

/-- Reference formulation of one relation's validation as a `filterMap`
step (defined only on well-formed relations; malformed ones map to `none`,
but the equivalence theorem is stated under `RelationsWF`). -/
def validRelFilter (r : Relation) : Option Relation :=
  match r.source, r.target with
  | some s, some t =>
    if s = "" ∨ t = "" ∨ s = t then none
    else some { r with type := some (match r.type with
      | some ty => if ty = "" then "RELATED_TO" else ty
      | none => "RELATED_TO") }
  | _, _ => none

/-! ### Concrete inputs used by counterexamples and witnesses -/

/-- A relation dict lacking the `source` key. -/
def relMissingSource : Relation := { source := none, target := some "B", type := some "R", props := [] }

/-- A relation dict with a truthy source but lacking the `target` key. -/
def relMissingTarget : Relation := { source := some "A", target := none, type := some "R", props := [] }

def resBadCanon : ExtractionResult := { chunk_id := none, entities := [], relations := [relMissingSource] }

def resBadValidate : ExtractionResult := { chunk_id := none, entities := [], relations := [relMissingTarget] }

/-- Two mentions whose names normalize to the same string but whose
types differ (claim C9's scenario). -/
def exC9 : List ExtractionResult :=
  [{ chunk_id := none,
     entities := [{ name := "Google", type := "PERSON", props := [] },
                  { name := "google", type := "ORG", props := [] }],
     relations := [] }]

/-- A small well-formed batch used by witnesses: a duplicate entity
mention and a relation with an empty type. -/
def exW : List ExtractionResult :=
  [{ chunk_id := some "c1",
     entities := [{ name := "Google Inc.", type := "ORG", props := [] },
                  { name := "google inc.", type := "ORG", props := [] }],
     relations := [{ source := some "google inc.", target := some "Alice", type := some "", props := [] }] }]


/-! ## The graph store model

Nodes carry Cypher labels and a property map; edges reference node
positions (which are stable, since nothing in the writer deletes).
`MERGE` of a node pattern binds every matching node or creates one;
`MERGE` of an edge binds every matching edge or creates one; `SET x += p`
overlays a property map.  `MATCH` binds every matching node. -/

structure Node where
  labels : List String
  props : Props
deriving DecidableEq, Inhabited

structure Edge where
  src : Nat
  tgt : Nat
  typ : String
  props : Props
deriving DecidableEq, Inhabited

structure GraphState where
  nodes : List Node
  edges : List Edge
deriving DecidableEq, Inhabited

def emptyGraph : GraphState := { nodes := [], edges := [] }

def nodeCount (s : GraphState) : Nat := s.nodes.length

def edgeCount (s : GraphState) : Nat := s.edges.length

/-- A node matches the pattern `(n:label {key: v})`. -/
def nodeLK (label key v : String) (n : Node) : Bool :=
  n.labels.contains label && lookupProp n.props key == some v

/-- A node matches the pattern `(n {name: v})` (no label, as in the
relation and provenance queries). -/
def nodeN (v : String) (n : Node) : Bool :=
  lookupProp n.props "name" == some v

/-- Indices of the nodes satisfying a predicate (a MATCH / MERGE binding). -/
def idxsWhereAux (p : Node → Bool) : List Node → Nat → List Nat
  | [], _ => []
  | n :: ns, i => if p n then i :: idxsWhereAux p ns (i + 1) else idxsWhereAux p ns (i + 1)

def idxsWhere (ns : List Node) (p : Node → Bool) : List Nat := idxsWhereAux p ns 0

/-- Cypher `MERGE` of a single-label single-key node pattern: bind all
matching nodes, or create one when there is none.  Returns the updated
state and the bound indices. -/
def mergeNode (s : GraphState) (label key v : String) : GraphState × List Nat :=
  match idxsWhere s.nodes (nodeLK label key v) with
  | [] => ({ s with nodes := s.nodes ++ [{ labels := [label], props := [(key, v)] }] },
           [s.nodes.length])
  | is => (s, is)

/-- Cypher `SET n += ps` on the node at position `i`. -/
def setNodeProps (s : GraphState) (i : Nat) (ps : Props) : GraphState :=
  { s with nodes := (s.nodes.set i (Node.mk (s.nodes.getD i default).labels
      (overlayProps (s.nodes.getD i default).props ps))) }

def setNodesProps (s : GraphState) (is : List Nat) (ps : Props) : GraphState :=
  is.foldl (fun st i => setNodeProps st i ps) s

/-- Does an edge with these endpoints and this type exist? -/
def hasEdge (s : GraphState) (a b : Nat) (t : String) : Bool :=
  s.edges.any (fun e => e.src == a && e.tgt == b && e.typ == t)

/-- Cypher `MERGE (a)-[r:t]->(b)` followed by `SET r += ps`: update all
matching edges, or create the edge when there is none. -/
def mergeEdge (s : GraphState) (a b : Nat) (t : String) (ps : Props) : GraphState :=
  if hasEdge s a b t then
    { s with edges := s.edges.map (fun e =>
        if e.src == a && e.tgt == b && e.typ == t then
          { e with props := overlayProps e.props ps } else e) }
  else { s with edges := s.edges ++ [{ src := a, tgt := b, typ := t, props := ps }] }

/-! ## `KnowledgeGraphBuilder.build_pure_graph` (`app/utils/kg_builder.py`)

The three Cypher templates of the writer, applied row by row. -/

structure Chunk where
  id : String
  text : String
deriving DecidableEq, Inhabited

/-- Step 1: `MERGE (d:Document {id: $id})`. -/
def apply_document (docId : String) (s : GraphState) : GraphState :=
  (mergeNode s "Document" "id" docId).1

/-- The per-document-binding body of the section query:
`MERGE (s:Section {id: row.id})`, `SET s.text = row.text`,
`MERGE (d)-[:HAS_SECTION]->(s)`. -/
def apply_section_d (row : Chunk) (st : GraphState) (d : Nat) : GraphState :=
  (mergeNode st "Section" "id" row.id).2.foldl
    (fun s2 b => mergeEdge s2 d b "HAS_SECTION" [])
    (setNodesProps (mergeNode st "Section" "id" row.id).1
      (mergeNode st "Section" "id" row.id).2 [("text", row.text)])

/-- One `UNWIND` row of the section query: `MATCH (d:Document {id})`
binds every document; the merge pipeline runs per binding. -/
def apply_section_row (docId : String) (st : GraphState) (row : Chunk) : GraphState :=
  (idxsWhere st.nodes (nodeLK "Document" "id" docId)).foldl (apply_section_d row) st

/-- Step 2: the batched section query over all chunks. -/
def apply_sections (docId : String) (rows : List Chunk) (st : GraphState) : GraphState :=
  rows.foldl (apply_section_row docId) st

/-- A row of `entity_list` (its `type` is the group key of its batch). -/
structure EntityRow where
  name : String
  props : Props
deriving DecidableEq, Inhabited

/-- One row of an entity-type batch:
`MERGE (e:etype {name: row.name}) SET e += row.properties`. -/
def apply_entity_row (etype : String) (st : GraphState) (row : EntityRow) : GraphState :=
  setNodesProps (mergeNode st etype "name" row.name).1
    (mergeNode st etype "name" row.name).2 row.props

def apply_entity_batch (etype : String) (batch : List EntityRow) (st : GraphState) : GraphState :=
  batch.foldl (apply_entity_row etype) st

/-- The bindings of `MATCH (x {name: v})`; a missing dict key is a Cypher
`null`, which matches nothing. -/
def nameIdxs (st : GraphState) (v : Option String) : List Nat :=
  match v with
  | none => []
  | some x => idxsWhere st.nodes (nodeN x)

/-- One row of a relation-type batch: match all source and target
bindings against the row-start state and merge the typed edge per pair. -/
def apply_relation_row (rtype : String) (st : GraphState) (r : Relation) : GraphState :=
  (nameIdxs st r.source).foldl (fun s1 a =>
    (nameIdxs st r.target).foldl (fun s2 b => mergeEdge s2 a b rtype r.props) s1) st

def apply_relation_batch (rtype : String) (batch : List Relation) (st : GraphState) : GraphState :=
  batch.foldl (apply_relation_row rtype) st

/-- A `mentions` row `(chunk_id, entity_name, entity_type)`. -/
structure MentionRow where
  chunk_id : String
  entity_name : String
  entity_type : String
deriving DecidableEq, Inhabited

/-- One mentions row: `MATCH (s:Section {id})`, `MATCH (e {name})`,
`MERGE (s)-[:MENTIONS]->(e)` per binding pair. -/
def apply_mention_row (st : GraphState) (row : MentionRow) : GraphState :=
  (idxsWhere st.nodes (nodeLK "Section" "id" row.chunk_id)).foldl (fun s1 a =>
    (idxsWhere st.nodes (nodeN row.entity_name)).foldl
      (fun s2 b => mergeEdge s2 a b "MENTIONS" []) s1) st

def apply_mentions_page (page : List MentionRow) (st : GraphState) : GraphState :=
  page.foldl apply_mention_row st

/-! ### Batch preparation (`_batch_write_pure_graph` data flow) -/

/-- The `all_entities` dict: keyed by `(name, type)`, first-seen entity
kept in insertion order, properties of later duplicates merged in with
`dict.update`. -/
def dedupEntities (results : List ExtractionResult) : List ((String × String) × Props) :=
  results.foldl (fun acc res =>
    res.entities.foldl (fun acc2 e =>
      if acc2.any (fun p => p.1 = (e.name, e.type)) then
        acc2.map (fun p => if p.1 = (e.name, e.type) then (p.1, overlayProps p.2 e.props) else p)
      else acc2 ++ [((e.name, e.type), e.props)]) acc) []

/-- The `mentions` list: one row per entity occurrence of a result whose
`chunk_id` is truthy. -/
def mentionsOf (results : List ExtractionResult) : List MentionRow :=
  results.foldl (fun acc res =>
    match res.chunk_id with
    | some c =>
      if c = "" then acc
      else acc ++ res.entities.map (fun e =>
        { chunk_id := c, entity_name := e.name, entity_type := e.type })
    | none => acc) []

/-- Insert into a grouped association list, preserving first-seen key
order and within-group order (Python dict-of-lists construction). -/
def groupInsert {α : Type} (acc : List (String × List α)) (k : String) (x : α) :
    List (String × List α) :=
  if acc.any (fun g => g.1 = k) then
    acc.map (fun g => if g.1 = k then (g.1, g.2 ++ [x]) else g)
  else acc ++ [(k, [x])]

/-- `entities_by_type` over the rows of `entity_list`. -/
def entityGroups (results : List ExtractionResult) : List (String × List EntityRow) :=
  (dedupEntities results).foldl (fun acc p =>
    groupInsert acc p.1.2 { name := p.1.1, props := p.2 }) []

/-- `relations_by_type`, keyed by `rel.get("type", "RELATED_TO")`. -/
def relationGroups (results : List ExtractionResult) : List (String × List Relation) :=
  (results.foldl (fun acc res => acc ++ res.relations) []).foldl
    (fun acc r => groupInsert acc (r.type.getD "RELATED_TO") r) []

/-- Fixed-size paging of the mentions rows (`batch_size = 1000`),
implemented with a structural fuel argument (the list length). -/
def chunkPagesAux {α : Type} : Nat → List α → List (List α)
  | 0, _ => []
  | _, [] => []
  | fuel + 1, x :: xs => (x :: xs).take 1000 :: chunkPagesAux fuel ((x :: xs).drop 1000)

def chunkPages {α : Type} (xs : List α) : List (List α) := chunkPagesAux xs.length xs

/-- `build_pure_graph` composed with `_batch_write_pure_graph`, with
every store query applied to the embedded state (the execution in which
no query fails). -/
def build_pure_graph (docId : String) (chunks : List Chunk) (results : List ExtractionResult)
    (s : GraphState) : GraphState :=
  (chunkPages (mentionsOf results)).foldl (fun st p => apply_mentions_page p st)
    ((relationGroups results).foldl (fun st g => apply_relation_batch g.1 g.2 st)
      ((entityGroups results).foldl (fun st g => apply_entity_batch g.1 g.2 st)
        (apply_sections docId chunks (apply_document docId s))))

/-! ### Failure model of the writer (claim C7) -/

/-- The store queries issued by one `build_pure_graph` call. -/
inductive QueryTag
  | doc
  | sections
  | entityBatch (etype : String)
  | relationBatch (rtype : String)
  | mentionsPage (i : Nat)
deriving DecidableEq

/-- One `graph.query` call: fail according to the oracle, or apply the
query's effect to the store. -/
def queryE (failOn : QueryTag → Bool) (tag : QueryTag) (eff : GraphState → GraphState)
    (s : GraphState) : Except String GraphState :=
  if failOn tag then .error "query failed" else .ok (eff s)

/-- A per-batch `try/except` inside `_batch_write_pure_graph`: the
failure is logged and the store keeps the state it had. -/
def caught (act : Except String GraphState) (s : GraphState) : GraphState :=
  match act with
  | .ok t => t
  | .error _ => s

/-- The mentions paging loop: pages run sequentially inside one `try`,
so the first failing page aborts the remaining pages but keeps the
effects of the earlier ones, and the failure itself is caught. -/
def mentionsLoopE (failOn : QueryTag → Bool) : Nat → List (List MentionRow) → GraphState → GraphState
  | _, [], s => s
  | i, p :: rest, s =>
    if failOn (.mentionsPage i) then s
    else mentionsLoopE failOn (i + 1) rest (apply_mentions_page p s)

/-- `_batch_write_pure_graph` with per-batch failure handling. -/
def batch_write_E (failOn : QueryTag → Bool) (results : List ExtractionResult)
    (s : GraphState) : GraphState :=
  mentionsLoopE failOn 0 (chunkPages (mentionsOf results))
    ((relationGroups results).foldl
      (fun st g => caught (queryE failOn (.relationBatch g.1) (apply_relation_batch g.1 g.2) st) st)
      ((entityGroups results).foldl
        (fun st g => caught (queryE failOn (.entityBatch g.1) (apply_entity_batch g.1 g.2) st) st)
        s))

/-- `build_pure_graph` under the failure model: document and section
failures propagate out of the call (`raise e`), batch failures do not. -/
def build_pure_graph_E (failOn : QueryTag → Bool) (docId : String) (chunks : List Chunk)
    (results : List ExtractionResult) (s : GraphState) : Except String GraphState := do
  let s1 ← queryE failOn .doc (apply_document docId) s
  let s2 ← queryE failOn .sections (apply_sections docId chunks) s1
  .ok (batch_write_E failOn results s2)

/-- Reference for C7: the same write with each failing batch skipped and
every non-failing sibling batch applied. -/
def pagesUpToFailure (failOn : QueryTag → Bool) : Nat → List (List MentionRow) → List (List MentionRow)
  | _, [] => []
  | i, p :: rest =>
    if failOn (.mentionsPage i) then [] else p :: pagesUpToFailure failOn (i + 1) rest

def batch_write_skip (failOn : QueryTag → Bool) (results : List ExtractionResult)
    (s : GraphState) : GraphState :=
  (pagesUpToFailure failOn 0 (chunkPages (mentionsOf results))).foldl
    (fun st p => apply_mentions_page p st)
    (((relationGroups results).filter (fun g => !failOn (.relationBatch g.1))).foldl
      (fun st g => apply_relation_batch g.1 g.2 st)
      (((entityGroups results).filter (fun g => !failOn (.entityBatch g.1))).foldl
        (fun st g => apply_entity_batch g.1 g.2 st) s))

/-! ### Invariants for the idempotence proof (claim C1) -/

/-- Two nodes agree on everything the merge patterns inspect: labels and
the `name` / `id` properties. -/
def nodeKeyEq (a b : Node) : Prop :=
  b.labels = a.labels ∧ lookupProp b.props "name" = lookupProp a.props "name"
    ∧ lookupProp b.props "id" = lookupProp a.props "id"

def NodesEquiv (w u : GraphState) : Prop := List.Forall₂ nodeKeyEq w.nodes u.nodes

def edgeKeyEq (a b : Edge) : Prop := b.src = a.src ∧ b.tgt = a.tgt ∧ b.typ = a.typ

def EdgesEquiv (w u : GraphState) : Prop := List.Forall₂ edgeKeyEq w.edges u.edges

def StateEquiv (w u : GraphState) : Prop := NodesEquiv w u ∧ EdgesEquiv w u

/-- Saturation of the document merge in `w`. -/
def DocSat (w : GraphState) (docId : String) : Prop :=
  idxsWhere w.nodes (nodeLK "Document" "id" docId) ≠ []

/-- Saturation of the section batch in `w`: when a document binding
exists, every row's section exists, and every document/section binding
pair is already linked. -/
def SectionsSat (w : GraphState) (docId : String) (rows : List Chunk) : Prop :=
  ∀ row ∈ rows,
    (idxsWhere w.nodes (nodeLK "Document" "id" docId) ≠ [] →
      idxsWhere w.nodes (nodeLK "Section" "id" row.id) ≠ []) ∧
    ∀ a ∈ idxsWhere w.nodes (nodeLK "Document" "id" docId),
      ∀ b ∈ idxsWhere w.nodes (nodeLK "Section" "id" row.id),
        hasEdge w a b "HAS_SECTION" = true

/-- Saturation of the entity batches in `w`. -/
def EntitySat (w : GraphState) (groups : List (String × List EntityRow)) : Prop :=
  ∀ g ∈ groups, ∀ row ∈ g.2, idxsWhere w.nodes (nodeLK g.1 "name" row.name) ≠ []

/-- Saturation of the relation batches in `w`. -/
def RelationSat (w : GraphState) (groups : List (String × List Relation)) : Prop :=
  ∀ g ∈ groups, ∀ r ∈ g.2, ∀ a ∈ nameIdxs w r.source, ∀ b ∈ nameIdxs w r.target,
    hasEdge w a b g.1 = true

/-- Saturation of the mentions pages in `w`. -/
def MentionSat (w : GraphState) (pages : List (List MentionRow)) : Prop :=
  ∀ p ∈ pages, ∀ row ∈ p,
    ∀ a ∈ idxsWhere w.nodes (nodeLK "Section" "id" row.chunk_id),
      ∀ b ∈ idxsWhere w.nodes (nodeN row.entity_name),
        hasEdge w a b "MENTIONS" = true

/-- A property map that does not touch the merge keys `name` / `id`. -/
abbrev SafeProps (ps : Props) : Prop := ∀ kv ∈ ps, kv.1 ≠ "name" ∧ kv.1 ≠ "id"

/-- Evolution that keeps every existing node's position, labels and
merge-key properties (new nodes may be appended, other properties may
change). -/
def NodesGrow (s t : GraphState) : Prop :=
  ∀ i n, s.nodes.get? i = some n → ∃ n', t.nodes.get? i = some n' ∧ nodeKeyEq n n'

/-- Evolution that keeps every existing edge key. -/
def EdgesMono (s t : GraphState) : Prop :=
  ∀ a b ty, hasEdge s a b ty = true → hasEdge t a b ty = true

/-- Evolution under which every `(label, id)` merge pattern binds the
same positions. -/
def KeepsIdPatterns (s t : GraphState) : Prop :=
  ∀ l v : String, idxsWhere t.nodes (nodeLK l "id" v) = idxsWhere s.nodes (nodeLK l "id" v)

/-- The hypothesis of the amended C1: no entity's free-form properties
contain the merge-key properties `name` or `id` (which `SET e += props`
would otherwise overwrite, re-keying the node). -/
abbrev EntityPropsSafe (results : List ExtractionResult) : Prop :=
  ∀ res ∈ results, ∀ e ∈ res.entities,
    lookupProp e.props "name" = none ∧ lookupProp e.props "id" = none

/-- C1 counterexample input: an entity whose properties overwrite the
`name` merge key. -/
def exC1 : List ExtractionResult :=
  [{ chunk_id := none,
     entities := [{ name := "A", type := "T", props := [("name", "B")] }],
     relations := [] }]

/-- An oracle that fails exactly the entity-type batches (C7 witness). -/
def failEnt : QueryTag → Bool
  | .entityBatch _ => true
  | _ => false


/-! ## `extract_entities_and_relations` / `extract_from_chunks` (claim C3)

The LLM call is an oracle returning either a parsed payload or a raised
exception; the thread-pool completion order is an oracle list of task
indices; a task raising at `future.result()` is an oracle on indices. -/

/-- `extract_entities_and_relations`: the whole body is wrapped in
`try/except`, so a failing call degrades to an empty payload. -/
def extract_entities_and_relations (llm : String → Except String (List Entity × List Relation))
    (text : String) : List Entity × List Relation :=
  match llm text with
  | .ok r => r
  | .error _ => ([], [])

/-- The worker: extract, then tag the dict with its chunk id. -/
def process_chunk_extraction (llm : String → Except String (List Entity × List Relation))
    (data : String × String) : ExtractionResult :=
  { chunk_id := some data.2,
    entities := (extract_entities_and_relations llm data.1).1,
    relations := (extract_entities_and_relations llm data.1).2 }

/-- `extract_from_chunks`: the `as_completed` loop visits every task
once in completion order `order`; a task whose `future.result()` raises
is logged and contributes nothing to `results`. -/
def extract_from_chunks (llm : String → Except String (List Entity × List Relation))
    (raisesAt : Nat → Bool) (order : List Nat)
    (chunk_texts chunk_ids : List String) : List ExtractionResult :=
  order.filterMap (fun i =>
    match (chunk_texts.zip chunk_ids).get? i with
    | none => none
    | some data => if raisesAt i then none else some (process_chunk_extraction llm data))


/-! ## `DocumentPipeline.process_documents` (claim C6)

The text splitter, the uuid generator and the store failures are
oracles; cleaning, canonicalization, validation and the graph write are
the embedded stage functions. The except-block is modeled by the
optional message threaded out of the loop. -/

structure PipelineOracle where
  chunk_text : String → Except String (List Chunk)
  extract_kg : List Chunk → List ExtractionResult
  doc_id : Nat → String
  failOn : QueryTag → Bool

structure PipelineResult where
  status : String
  total_documents : Nat
  total_chunks : Nat
  error : Option String
deriving DecidableEq

/-- The document loop of `process_documents`: accumulate
`total_chunks`, thread the store state, stop at the first stage
exception and hand its message out. -/
def process_docs_loop (orc : PipelineOracle) :
    List String → Nat → Nat → GraphState → Nat × GraphState × Option String
  | [], _, acc, g => (acc, g, none)
  | d :: rest, i, acc, g =>
    match orc.chunk_text (clean_text d) with
    | .error e => (acc, g, some e)
    | .ok chunks =>
      match canonicalize_entities (orc.extract_kg chunks) with
      | .error e => (acc + chunks.length, g, some e)
      | .ok rs2 =>
        match validate_relations rs2 with
        | .error e => (acc + chunks.length, g, some e)
        | .ok rs3 =>
          match build_pure_graph_E orc.failOn (orc.doc_id i) chunks rs3 g with
          | .error e => (acc + chunks.length, g, some e)
          | .ok g2 => process_docs_loop orc rest (i + 1) (acc + chunks.length) g2

/-- `process_documents`: the structured result dict. The loop runs in a
`try`; on success the status is `success` with a `none` error, on a
stage exception the status is `error` with the message attached. -/
def process_documents (orc : PipelineOracle) (documents : List String) (g : GraphState) :
    PipelineResult :=
  match (process_docs_loop orc documents 0 0 g).2.2 with
  | none =>
    { status := "success", total_documents := documents.length,
      total_chunks := (process_docs_loop orc documents 0 0 g).1, error := none }
  | some e =>
    { status := "error", total_documents := documents.length,
      total_chunks := (process_docs_loop orc documents 0 0 g).1, error := some e }

/-- Reference for C6 (from the spec): the message of the first stage
exception, in stage order, across the documents. -/
def firstStageError (orc : PipelineOracle) : GraphState → List String → Nat → Option String
  | _, [], _ => none
  | g, d :: rest, i =>
    match orc.chunk_text (clean_text d) with
    | .error e => some e
    | .ok chunks =>
      match canonicalize_entities (orc.extract_kg chunks) with
      | .error e => some e
      | .ok rs2 =>
        match validate_relations rs2 with
        | .error e => some e
        | .ok rs3 =>
          match build_pure_graph_E orc.failOn (orc.doc_id i) chunks rs3 g with
          | .error e => some e
          | .ok g2 => firstStageError orc g2 rest (i + 1)

/-- Reference for C6 (from the spec): the total chunk count, defined
exactly when every document's chunking stage succeeds. -/
def chunkCountsRef (orc : PipelineOracle) : List String → Option Nat
  | [] => some 0
  | d :: rest =>
    match orc.chunk_text (clean_text d) with
    | .error _ => none
    | .ok chunks => (chunkCountsRef orc rest).map (fun m => chunks.length + m)

/-- A fully succeeding pipeline oracle (C6 witness). -/
def orcW : PipelineOracle :=
  { chunk_text := fun t => .ok [{ id := "c1", text := t }],
    extract_kg := fun _ => exW,
    doc_id := fun _ => "doc1",
    failOn := fun _ => false }


/-! ## Retrieval: `retrieve_subgraph` and `search_knowledge_graph` (claim C8)

The Neo4j connection and the two Cypher queries are oracles that either
yield rows or raise. -/

structure RetrievalOracle where
  connect : Except String Unit
  queryGraph : Except String (List (String × String × String × String))
  queryText : Except String (List String)

/-- `retrieve_subgraph`: the whole body runs in a `try` whose handler
returns `[]`; empty query results contribute no lines. -/
def retrieve_subgraph (orc : RetrievalOracle) : List String :=
  match orc.connect with
  | .error _ => []
  | .ok _ =>
    match orc.queryGraph with
    | .error _ => []
    | .ok graph_results =>
      match orc.queryText with
      | .error _ => []
      | .ok text_results =>
        (if graph_results.isEmpty then [] else
          "### Knowledge Graph Connections:" ::
            graph_results.map (fun row =>
              "- " ++ row.1 ++ " --[" ++ row.2.1 ++ "]--> " ++ row.2.2.1
                ++ " (" ++ row.2.2.2 ++ ")"))
        ++ (if text_results.isEmpty then [] else
          "\n### Relevant Source Text:" ::
            text_results.map (fun t => "- ..." ++ String.mk (t.data.take 300) ++ "..."))

/-- The `search_knowledge_graph` tool: an empty retrieval becomes the
no-information sentinel. -/
def search_knowledge_graph (orc : RetrievalOracle) : List String :=
  match retrieve_subgraph orc with
  | [] => ["No relevant information found in the knowledge graph."]
  | results => results

/-- A reachable store whose queries yield nothing (C8 witness). -/
def orcE : RetrievalOracle :=
  { connect := .ok (), queryGraph := .ok [], queryText := .ok [] }

/-! ### Lemmas about the text cleaner -/

theorem collapseWs_cc_ww {c d : Char} (r : List Char) (hc : isWsChar c = true)
    (hd : isWsChar d = true) : collapseWs (c :: d :: r) = collapseWs (d :: r) := by
  simp [collapseWs, hc, hd]

theorem collapseWs_cc_wn {c d : Char} (r : List Char) (hc : isWsChar c = true)
    (hd : isWsChar d = false) : collapseWs (c :: d :: r) = ' ' :: collapseWs (d :: r) := by
  simp [collapseWs, hc, hd]

theorem collapseWs_cons_of_nonws {c : Char} (r : List Char) (h : isWsChar c = false) :
    collapseWs (c :: r) = c :: collapseWs r := by
  match r with
  | [] => simp [collapseWs, h]
  | d :: r' => simp [collapseWs, h]

theorem collapseWs_cons_of_ws {d : Char} (r : List Char) (h : isWsChar d = true) :
    ∃ t, collapseWs (d :: r) = ' ' :: t := by
  induction r generalizing d with
  | nil => exact ⟨[], by simp [collapseWs, h]⟩
  | cons e r' ih =>
    by_cases he : isWsChar e = true
    · obtain ⟨t, ht⟩ := ih he
      exact ⟨t, by rw [collapseWs_cc_ww r' h he, ht]⟩
    · simp only [Bool.not_eq_true] at he
      exact ⟨collapseWs (e :: r'), collapseWs_cc_wn r' h he⟩

theorem mem_collapseWs {c : Char} {l : List Char} (h : c ∈ collapseWs l) :
    c = ' ' ∨ c ∈ l := by
  induction l with
  | nil => simp [collapseWs] at h
  | cons d rest ih =>
    cases rest with
    | nil =>
      by_cases hd : isWsChar d = true
      · simp [collapseWs, hd] at h
        exact Or.inl h
      · simp only [Bool.not_eq_true] at hd
        simp [collapseWs, hd] at h
        exact Or.inr (by simp [h])
    | cons e r' =>
      by_cases hd : isWsChar d = true
      · by_cases he : isWsChar e = true
        · rw [collapseWs_cc_ww r' hd he] at h
          rcases ih h with h' | h'
          · exact Or.inl h'
          · exact Or.inr (List.mem_cons_of_mem _ h')
        · simp only [Bool.not_eq_true] at he
          rw [collapseWs_cc_wn r' hd he] at h
          rcases List.mem_cons.mp h with h' | h'
          · exact Or.inl h'
          · rcases ih h' with h'' | h''
            · exact Or.inl h''
            · exact Or.inr (List.mem_cons_of_mem _ h'')
      · simp only [Bool.not_eq_true] at hd
        rw [collapseWs_cons_of_nonws _ hd] at h
        rcases List.mem_cons.mp h with h' | h'
        · exact Or.inr (by simp [h'])
        · rcases ih h' with h'' | h''
          · exact Or.inl h''
          · exact Or.inr (List.mem_cons_of_mem _ h'')

theorem wsIsSpace_collapseWs (l : List Char) : WsIsSpace (collapseWs l) := by
  induction l with
  | nil => intro c hc _; simp [collapseWs] at hc
  | cons d rest ih =>
    cases rest with
    | nil =>
      by_cases hd : isWsChar d = true
      · intro c hc _
        simp [collapseWs, hd] at hc
        exact hc
      · simp only [Bool.not_eq_true] at hd
        intro c hc hw
        simp [collapseWs, hd] at hc
        subst hc
        exact absurd hw (by simp [hd])
    | cons e r' =>
      by_cases hd : isWsChar d = true
      · by_cases he : isWsChar e = true
        · rw [collapseWs_cc_ww r' hd he]
          exact ih
        · simp only [Bool.not_eq_true] at he
          rw [collapseWs_cc_wn r' hd he]
          intro c hc hw
          rcases List.mem_cons.mp hc with h' | h'
          · exact h'
          · exact ih c h' hw
      · simp only [Bool.not_eq_true] at hd
        rw [collapseWs_cons_of_nonws _ hd]
        intro c hc hw
        rcases List.mem_cons.mp hc with h' | h'
        · subst h'
          exact absurd hw (by simp [hd])
        · exact ih c h' hw

theorem noWsPair_collapseWs (l : List Char) : NoWsPair (collapseWs l) := by
  induction l with
  | nil => simp [collapseWs]
  | cons d rest ih =>
    cases rest with
    | nil =>
      by_cases hd : isWsChar d = true <;> simp [collapseWs, hd]
    | cons e r' =>
      by_cases hd : isWsChar d = true
      · by_cases he : isWsChar e = true
        · rw [collapseWs_cc_ww r' hd he]
          exact ih
        · simp only [Bool.not_eq_true] at he
          rw [collapseWs_cc_wn r' hd he]
          refine List.chain'_cons'.mpr ⟨?_, ih⟩
          intro y hy
          rw [collapseWs_cons_of_nonws r' he] at hy
          simp at hy
          subst hy
          exact Or.inr he
      · simp only [Bool.not_eq_true] at hd
        rw [collapseWs_cons_of_nonws _ hd]
        exact List.chain'_cons'.mpr ⟨fun y _ => Or.inl hd, ih⟩

theorem noDupPair_collapseWs {l : List Char} (h : NoDupPair l) :
    NoDupPair (collapseWs l) := by
  induction l with
  | nil => simp [collapseWs]
  | cons d rest ih =>
    cases rest with
    | nil =>
      by_cases hd : isWsChar d = true <;> simp [collapseWs, hd]
    | cons e r' =>
      by_cases hd : isWsChar d = true
      · by_cases he : isWsChar e = true
        · rw [collapseWs_cc_ww r' hd he]
          exact ih h.tail
        · simp only [Bool.not_eq_true] at he
          rw [collapseWs_cc_wn r' hd he]
          exact List.chain'_cons'.mpr ⟨fun y _ => Or.inl (by decide), ih h.tail⟩
      · simp only [Bool.not_eq_true] at hd
        rw [collapseWs_cons_of_nonws _ hd]
        refine List.chain'_cons'.mpr ⟨?_, ?_⟩
        · intro y hy
          by_cases he : isWsChar e = true
          · obtain ⟨t, ht⟩ := collapseWs_cons_of_ws r' he
            rw [ht] at hy
            simp at hy
            subst hy
            right
            intro hde
            rw [← hde] at hd
            exact absurd hd (by simp [isWsChar])
          · simp only [Bool.not_eq_true] at he
            rw [collapseWs_cons_of_nonws r' he] at hy
            simp at hy
            subst hy
            exact (List.chain'_cons.mp h).1
        · exact ih h.tail

theorem collapseWs_eq_self {l : List Char} (h1 : NoWsPair l) (h2 : WsIsSpace l) :
    collapseWs l = l := by
  induction l with
  | nil => rfl
  | cons d rest ih =>
    have h2' : WsIsSpace rest := fun c hc hw => h2 c (List.mem_cons_of_mem _ hc) hw
    cases rest with
    | nil =>
      by_cases hd : isWsChar d = true
      · have hds : d = ' ' := h2 d (by simp) hd
        simp [collapseWs, hd, hds]
      · simp only [Bool.not_eq_true] at hd
        simp [collapseWs, hd]
    | cons e r' =>
      by_cases hd : isWsChar d = true
      · have hds : d = ' ' := h2 d (by simp) hd
        have he : isWsChar e = false := by
          rcases (List.chain'_cons.mp h1).1 with h' | h'
          · rw [h'] at hd; simp at hd
          · exact h'
        rw [collapseWs_cc_wn r' hd he, ih h1.tail h2', hds]
      · simp only [Bool.not_eq_true] at hd
        rw [collapseWs_cons_of_nonws _ hd, ih h1.tail h2']

theorem collapseWs_ne_nil {l : List Char} (h : l ≠ []) : collapseWs l ≠ [] := by
  induction l with
  | nil => exact absurd rfl h
  | cons d rest ih =>
    cases rest with
    | nil => by_cases hd : isWsChar d = true <;> simp [collapseWs, hd]
    | cons e r' =>
      by_cases hd : isWsChar d = true
      · by_cases he : isWsChar e = true
        · rw [collapseWs_cc_ww r' hd he]
          exact ih (by simp)
        · simp only [Bool.not_eq_true] at he
          rw [collapseWs_cc_wn r' hd he]
          simp
      · simp only [Bool.not_eq_true] at hd
        rw [collapseWs_cons_of_nonws _ hd]
        simp

theorem getLast?_cons_ne {c : Char} {t : List Char} (h : t ≠ []) :
    (c :: t).getLast? = t.getLast? := by
  match t, h with
  | d :: t', _ => exact List.getLast?_cons_cons

theorem collapseWs_getLast_nonws {l : List Char}
    (h : ∀ c ∈ l.getLast?, isWsChar c = false) :
    ∀ c ∈ (collapseWs l).getLast?, isWsChar c = false := by
  induction l with
  | nil => simp [collapseWs]
  | cons d rest ih =>
    cases rest with
    | nil =>
      have hd : isWsChar d = false := by
        apply h
        simp
      intro c hc
      rw [collapseWs_cons_of_nonws _ hd] at hc
      simp [collapseWs] at hc
      subst hc
      exact hd
    | cons e r' =>
      have h' : ∀ c ∈ (e :: r').getLast?, isWsChar c = false := by
        intro c hc
        apply h
        rw [List.getLast?_cons_cons]
        exact hc
      have hne : collapseWs (e :: r') ≠ [] := collapseWs_ne_nil (by simp)
      by_cases hd : isWsChar d = true
      · by_cases he : isWsChar e = true
        · rw [collapseWs_cc_ww r' hd he]
          exact ih h'
        · simp only [Bool.not_eq_true] at he
          rw [collapseWs_cc_wn r' hd he]
          intro c hc
          rw [getLast?_cons_ne hne] at hc
          exact ih h' c hc
      · simp only [Bool.not_eq_true] at hd
        rw [collapseWs_cons_of_nonws _ hd]
        intro c hc
        rw [getLast?_cons_ne hne] at hc
        exact ih h' c hc

theorem collapseWs_head_nonws {l : List Char}
    (h : ∀ c ∈ l.head?, isWsChar c = false) :
    ∀ c ∈ (collapseWs l).head?, isWsChar c = false := by
  match l with
  | [] => simp [collapseWs]
  | d :: rest =>
    have hd : isWsChar d = false := by
      apply h
      simp
    rw [collapseWs_cons_of_nonws _ hd]
    intro c hc
    simp at hc
    subst hc
    exact hd

theorem mem_collapseDup {c : Char} {l : List Char} (h : c ∈ collapseDup l) : c ∈ l := by
  induction l with
  | nil => simp [collapseDup] at h
  | cons d rest ih =>
    cases rest with
    | nil => simpa [collapseDup] using h
    | cons e r' =>
      by_cases hd : isDupPunct d = true
      · by_cases he : e = d
        · have hstep : collapseDup (d :: e :: r') = collapseDup (e :: r') := by
            simp [collapseDup, hd, he]
          rw [hstep] at h
          exact List.mem_cons_of_mem _ (ih h)
        · have hstep : collapseDup (d :: e :: r') = d :: collapseDup (e :: r') := by
            simp [collapseDup, hd, he]
          rw [hstep] at h
          rcases List.mem_cons.mp h with h' | h'
          · simp [h']
          · exact List.mem_cons_of_mem _ (ih h')
      · have hstep : collapseDup (d :: e :: r') = d :: collapseDup (e :: r') := by
          simp [collapseDup, hd]
        rw [hstep] at h
        rcases List.mem_cons.mp h with h' | h'
        · simp [h']
        · exact List.mem_cons_of_mem _ (ih h')

theorem collapseDup_cons (c : Char) (r : List Char) :
    ∃ t, collapseDup (c :: r) = c :: t := by
  induction r generalizing c with
  | nil => exact ⟨[], by simp [collapseDup]⟩
  | cons e r' ih =>
    by_cases hd : isDupPunct c = true
    · by_cases he : e = c
      · obtain ⟨t, ht⟩ := ih e
        refine ⟨t, ?_⟩
        have hstep : collapseDup (c :: e :: r') = collapseDup (e :: r') := by
          simp [collapseDup, hd, he]
        rw [hstep, ht, he]
      · exact ⟨collapseDup (e :: r'), by simp [collapseDup, hd, he]⟩
    · exact ⟨collapseDup (e :: r'), by simp [collapseDup, hd]⟩

theorem noDupPair_collapseDup (l : List Char) : NoDupPair (collapseDup l) := by
  induction l with
  | nil => simp [collapseDup]
  | cons d rest ih =>
    cases rest with
    | nil => simp [collapseDup]
    | cons e r' =>
      by_cases hd : isDupPunct d = true
      · by_cases he : e = d
        · have hstep : collapseDup (d :: e :: r') = collapseDup (e :: r') := by
            simp [collapseDup, hd, he]
          rw [hstep]
          exact ih
        · have hstep : collapseDup (d :: e :: r') = d :: collapseDup (e :: r') := by
            simp [collapseDup, hd, he]
          obtain ⟨t, ht⟩ := collapseDup_cons e r'
          rw [hstep, ht]
          refine List.chain'_cons.mpr ⟨Or.inr he, ?_⟩
          rw [← ht]
          exact ih
      · have hstep : collapseDup (d :: e :: r') = d :: collapseDup (e :: r') := by
          simp [collapseDup, hd]
        obtain ⟨t, ht⟩ := collapseDup_cons e r'
        rw [hstep, ht]
        refine List.chain'_cons.mpr ⟨Or.inl (by simpa using hd), ?_⟩
        rw [← ht]
        exact ih

theorem collapseDup_eq_self {l : List Char} (h : NoDupPair l) : collapseDup l = l := by
  induction l with
  | nil => rfl
  | cons d rest ih =>
    cases rest with
    | nil => simp [collapseDup]
    | cons e r' =>
      by_cases hd : isDupPunct d = true
      · have he : e ≠ d := by
          rcases (List.chain'_cons.mp h).1 with h' | h'
          · rw [h'] at hd; simp at hd
          · exact h'
        have hstep : collapseDup (d :: e :: r') = d :: collapseDup (e :: r') := by
          simp [collapseDup, hd, he]
        rw [hstep, ih h.tail]
      · have hstep : collapseDup (d :: e :: r') = d :: collapseDup (e :: r') := by
          simp [collapseDup, hd]
        rw [hstep, ih h.tail]

theorem head_dropWhile_false (p : Char → Bool) (l : List Char) :
    ∀ c ∈ (l.dropWhile p).head?, p c = false := by
  induction l with
  | nil => simp [List.dropWhile]
  | cons d rest ih =>
    by_cases hd : p d = true
    · simpa [List.dropWhile, hd] using ih
    · simp only [Bool.not_eq_true] at hd
      intro c hc
      simp [List.dropWhile, hd] at hc
      subst hc
      exact hd

theorem getLast?_dropWhile {p : Char → Bool} {l : List Char}
    (h : l.dropWhile p ≠ []) : (l.dropWhile p).getLast? = l.getLast? := by
  have hsuf : l.dropWhile p <:+ l := List.dropWhile_suffix p
  obtain ⟨t, ht⟩ := hsuf
  conv_rhs => rw [← ht]
  exact (List.getLast?_append_of_ne_nil t h).symm

theorem stripChars_head (l : List Char) :
    ∀ c ∈ (stripChars l).head?, isWsChar c = false := by
  intro c hc
  unfold stripChars at hc
  rw [List.head?_reverse] at hc
  by_cases hne : (l.dropWhile isWsChar).reverse.dropWhile isWsChar = []
  · rw [hne] at hc
    simp at hc
  · rw [getLast?_dropWhile hne, List.getLast?_reverse] at hc
    exact head_dropWhile_false isWsChar l c hc

theorem stripChars_last (l : List Char) :
    ∀ c ∈ (stripChars l).getLast?, isWsChar c = false := by
  intro c hc
  unfold stripChars at hc
  rw [List.getLast?_reverse] at hc
  exact head_dropWhile_false isWsChar _ c hc

theorem dropWhile_eq_self_of_head {p : Char → Bool} {l : List Char}
    (h : ∀ c ∈ l.head?, p c = false) : l.dropWhile p = l := by
  cases l with
  | nil => rfl
  | cons d rest =>
    have hd := h d (by simp)
    simp [List.dropWhile, hd]

theorem stripChars_eq_self {l : List Char} (h : StrippedEnds l) : stripChars l = l := by
  unfold stripChars
  rw [dropWhile_eq_self_of_head h.1]
  rw [dropWhile_eq_self_of_head ?h, List.reverse_reverse]
  case h =>
    intro c hc
    rw [List.head?_reverse] at hc
    exact h.2 c hc

theorem stripChars_within (l : List Char) : stripChars l <:+: l := by
  unfold stripChars
  have h1 : (l.dropWhile isWsChar).reverse.dropWhile isWsChar <:+ (l.dropWhile isWsChar).reverse :=
    List.dropWhile_suffix _
  have h2 := List.reverse_prefix.mpr h1
  rw [List.reverse_reverse] at h2
  exact h2.isInfix.trans (List.dropWhile_suffix _).isInfix

theorem mem_stripChars {c : Char} {l : List Char} (h : c ∈ stripChars l) : c ∈ l :=
  (stripChars_within l).subset h

theorem allKept_cleanL (l : List Char) : AllKept (cleanL l) := by
  intro c hc
  have h1 : c ∈ collapseDup ((collapseWs l).filter keepChar) := mem_stripChars hc
  have h2 : c ∈ (collapseWs l).filter keepChar := mem_collapseDup h1
  exact List.of_mem_filter h2

theorem chain_stripChars {R : Char → Char → Prop} {l : List Char}
    (h : List.Chain' R l) : List.Chain' R (stripChars l) := by
  unfold stripChars
  have h1 : List.Chain' R (l.dropWhile isWsChar) :=
    List.Chain'.suffix h (List.dropWhile_suffix _)
  have h2 : List.Chain' (flip R) (l.dropWhile isWsChar).reverse :=
    List.chain'_reverse.mpr h1
  have h3 : List.Chain' (flip R) ((l.dropWhile isWsChar).reverse.dropWhile isWsChar) :=
    List.Chain'.suffix h2 (List.dropWhile_suffix _)
  exact List.chain'_reverse.mpr h3

theorem noDupPair_cleanL (l : List Char) : NoDupPair (cleanL l) :=
  chain_stripChars (noDupPair_collapseDup ((collapseWs l).filter keepChar))

theorem strippedEnds_cleanL (l : List Char) : StrippedEnds (cleanL l) :=
  ⟨stripChars_head _, stripChars_last _⟩

theorem allKept_collapseWs {l : List Char} (h : AllKept l) : AllKept (collapseWs l) := by
  intro c hc
  rcases mem_collapseWs hc with h' | h'
  · subst h'
    decide
  · exact h c h'

theorem cleanL_fix {y : List Char} (hk : AllKept y) (hdp : NoDupPair y)
    (hse : StrippedEnds y) : cleanL y = collapseWs y ∧ cleanL (collapseWs y) = collapseWs y := by
  have hkC : AllKept (collapseWs y) := allKept_collapseWs hk
  have hfilter : (collapseWs y).filter keepChar = collapseWs y :=
    List.filter_eq_self.mpr hkC
  have hdpC : NoDupPair (collapseWs y) := noDupPair_collapseWs hdp
  have hdup : collapseDup (collapseWs y) = collapseWs y := collapseDup_eq_self hdpC
  have hstrip : stripChars (collapseWs y) = collapseWs y :=
    stripChars_eq_self ⟨collapseWs_head_nonws hse.1, collapseWs_getLast_nonws hse.2⟩
  have part1 : cleanL y = collapseWs y := by
    unfold cleanL
    rw [hfilter, hdup, hstrip]
  have hwsC : collapseWs (collapseWs y) = collapseWs y :=
    collapseWs_eq_self (noWsPair_collapseWs y) (wsIsSpace_collapseWs y)
  have part2 : cleanL (collapseWs y) = collapseWs y := by
    unfold cleanL
    rw [hwsC, hfilter, hdup, hstrip]
  exact ⟨part1, part2⟩

theorem cleanL_third_eq_second (l : List Char) :
    cleanL (cleanL (cleanL l)) = cleanL (cleanL l) := by
  obtain ⟨p1, p2⟩ := cleanL_fix (allKept_cleanL l) (noDupPair_cleanL l) (strippedEnds_cleanL l)
  rw [p1, p2]

/-! ### Lemmas about property maps and canonicalization -/

theorem exceptOkBind {α β : Type} (a : α) (f : α → Except String β) :
    ((Except.ok a : Except String α) >>= f) = f a := rfl

theorem lookupProp_append_left {m : Props} {k v : String}
    (h : lookupProp m k = some v) (m' : Props) : lookupProp (m ++ m') k = some v := by
  induction m with
  | nil => simp [lookupProp] at h
  | cons p rest ih =>
    obtain ⟨k', v'⟩ := p
    by_cases hk : k' = k
    · simpa [lookupProp, hk] using h
    · simp only [lookupProp, hk, if_false] at h
      simpa [lookupProp, hk] using ih h

theorem lookupProp_append_of_none {m : Props} {k : String}
    (h : lookupProp m k = none) (m' : Props) : lookupProp (m ++ m') k = lookupProp m' k := by
  induction m with
  | nil => simp
  | cons p rest ih =>
    obtain ⟨k', v'⟩ := p
    by_cases hk : k' = k
    · simp [lookupProp, hk] at h
    · simp only [lookupProp, hk, if_false] at h
      simpa [lookupProp, hk] using ih h

theorem insertIfAbsent_extends (m : Props) (k v : String) :
    MapExtends m (insertIfAbsent m k v) := by
  intro k' v' h
  unfold insertIfAbsent
  by_cases hs : (lookupProp m k).isSome = true
  · simp [hs, h]
  · simp only [hs, if_false, Bool.false_eq_true]
    exact lookupProp_append_left h _

theorem lookupProp_insertIfAbsent_self (m : Props) (k v : String) :
    lookupProp (insertIfAbsent m k v) k = some ((lookupProp m k).getD v) := by
  unfold insertIfAbsent
  by_cases hs : (lookupProp m k).isSome = true
  · obtain ⟨w, hw⟩ := Option.isSome_iff_exists.mp hs
    simp [hs, hw]
  · have hn : lookupProp m k = none := Option.not_isSome_iff_eq_none.mp (by simpa using hs)
    simp only [hs, if_false, Bool.false_eq_true]
    rw [lookupProp_append_of_none hn]
    simp [lookupProp, hn]

theorem mapExtends_refl (m : Props) : MapExtends m m := fun _ _ h => h

theorem mapExtends_trans {a b c : Props} (h1 : MapExtends a b) (h2 : MapExtends b c) :
    MapExtends a c := fun k v h => h2 k v (h1 k v h)

theorem entityMapOf_extends (m : Props) (es : List Entity) :
    MapExtends m (entityMapOf m es) := by
  induction es generalizing m with
  | nil => exact mapExtends_refl m
  | cons e rest ih => exact mapExtends_trans (insertIfAbsent_extends m _ _) (ih _)

theorem batchFrom_extends (m : Props) (rs : List ExtractionResult) :
    MapExtends m (batchFrom m rs) := by
  induction rs generalizing m with
  | nil => exact mapExtends_refl m
  | cons res rest ih => exact mapExtends_trans (entityMapOf_extends m res.entities) (ih _)

theorem canonName_eq_of_extends {m m' : Props} {s : String}
    (hsome : (lookupProp m (normName s)).isSome = true) (hext : MapExtends m m') :
    canonName m' s = canonName m s := by
  obtain ⟨c, hc⟩ := Option.isSome_iff_exists.mp hsome
  unfold canonName
  rw [hc, hext _ _ hc]

theorem mem_entityMapOf_isSome {e : Entity} {es : List Entity} (m : Props) (h : e ∈ es) :
    (lookupProp (entityMapOf m es) (normName e.name)).isSome = true := by
  induction es generalizing m with
  | nil => simp at h
  | cons e0 rest ih =>
    rcases List.mem_cons.mp h with h' | h'
    · subst h'
      have h1 : lookupProp (insertIfAbsent m (normName e.name) e.name) (normName e.name)
          = some ((lookupProp m (normName e.name)).getD e.name) :=
        lookupProp_insertIfAbsent_self m _ _
      have h2 := entityMapOf_extends (insertIfAbsent m (normName e.name) e.name) rest _ _ h1
      simp only [entityMapOf]
      rw [h2]
      rfl
    · exact ih _ h'

theorem canonEnts_spec (m : Props) (es : List Entity) :
    canonEnts m es = (entityMapOf m es,
      es.map (fun e => { e with name := canonName (entityMapOf m es) e.name })) := by
  induction es generalizing m with
  | nil => rfl
  | cons e rest ih =>
    have hsome : (lookupProp (insertIfAbsent m (normName e.name) e.name) (normName e.name)).isSome = true := by
      rw [lookupProp_insertIfAbsent_self]
      rfl
    simp only [canonEnts, entityMapOf, List.map_cons]
    rw [ih, canonName_eq_of_extends hsome (entityMapOf_extends _ rest)]

theorem canonRels_spec {rels : List Relation} (m : Props)
    (h : ∀ r ∈ rels, r.source.isSome = true ∧ r.target.isSome = true) :
    canonRels m rels = .ok (rels.map (fun r =>
      { r with source := r.source.map (canonName m), target := r.target.map (canonName m) })) := by
  induction rels with
  | nil => rfl
  | cons r rest ih =>
    obtain ⟨hs, ht⟩ := h r (by simp)
    obtain ⟨s, hs'⟩ := Option.isSome_iff_exists.mp hs
    obtain ⟨t, ht'⟩ := Option.isSome_iff_exists.mp ht
    have ih' := ih (fun r' hr' => h r' (List.mem_cons_of_mem _ hr'))
    simp only [canonRels, canonRelStep, hs', ht', List.map_cons, exceptOkBind]
    rw [ih']
    simp only [exceptOkBind, hs', ht', Option.map_some']

theorem canonResultStep_spec (m : Props) {res : ExtractionResult}
    (h : ∀ r ∈ res.relations, r.source.isSome = true ∧ r.target.isSome = true) :
    canonResultStep m res = .ok (canonStepRef m res) := by
  unfold canonResultStep canonStepRef
  rw [canonEnts_spec]
  simp only []
  rw [canonRels_spec (entityMapOf m res.entities) h]
  simp only [exceptOkBind]

theorem canonAux_spec {rs : List ExtractionResult} (m : Props) (h : RelationsWF rs) :
    canonAux m rs = .ok (canonRefAux m rs) := by
  induction rs generalizing m with
  | nil => rfl
  | cons res rest ih =>
    have hres := h res (by simp)
    simp only [canonAux, canonRefAux]
    rw [canonResultStep_spec m hres]
    simp only [exceptOkBind]
    rw [ih _ (fun r hr => h r (List.mem_cons_of_mem _ hr))]
    simp only [exceptOkBind]

theorem canonicalize_spec {rs : List ExtractionResult} (h : RelationsWF rs) :
    canonicalize_entities rs = .ok (canonRefAux [] rs) :=
  canonAux_spec [] h

theorem lookup_entityMapOf_none {m : Props} {es : List Entity} {k : String}
    (hm : lookupProp m k = none) (hes : ∀ e ∈ es, normName e.name ≠ k) :
    lookupProp (entityMapOf m es) k = none := by
  induction es generalizing m with
  | nil => exact hm
  | cons e rest ih =>
    have hne := hes e (by simp)
    have hm1 : lookupProp (insertIfAbsent m (normName e.name) e.name) k = none := by
      unfold insertIfAbsent
      by_cases hs : (lookupProp m (normName e.name)).isSome = true
      · simp [hs, hm]
      · simp only [hs, if_false, Bool.false_eq_true]
        rw [lookupProp_append_of_none hm]
        simp [lookupProp, hne]
    exact ih hm1 (fun e' he' => hes e' (List.mem_cons_of_mem _ he'))

theorem lookup_batchFrom_none {m : Props} {rs : List ExtractionResult} {k : String}
    (hm : lookupProp m k = none)
    (hrs : ∀ res ∈ rs, ∀ e ∈ res.entities, normName e.name ≠ k) :
    lookupProp (batchFrom m rs) k = none := by
  induction rs generalizing m with
  | nil => exact hm
  | cons res rest ih =>
    exact ih (lookup_entityMapOf_none hm (hrs res (by simp)))
      (fun res' hr' e he => hrs res' (List.mem_cons_of_mem _ hr') e he)

theorem canonRefAux_entities (m : Props) (rs : List ExtractionResult) :
    List.Forall₂ (fun res res' =>
      List.Forall₂ (fun e e' => e'.name = canonName (batchFrom m rs) e.name
        ∧ e'.type = e.type ∧ e'.props = e.props) res.entities res'.entities)
      rs (canonRefAux m rs) := by
  induction rs generalizing m with
  | nil => simp [canonRefAux]
  | cons res rest ih =>
    simp only [canonRefAux, canonStepRef]
    constructor
    · refine List.forall₂_map_right_iff.mpr (List.forall₂_same.mpr ?_)
      intro e he
      have hsome : (lookupProp (entityMapOf m res.entities) (normName e.name)).isSome = true :=
        mem_entityMapOf_isSome m he
      refine ⟨?_, rfl, rfl⟩
      exact (canonName_eq_of_extends hsome (batchFrom_extends _ rest)).symm
    · exact ih _

/-! ### Lemmas about relation validation -/

theorem validateRel_spec {r : Relation} {s t : String}
    (hs : r.source = some s) (ht : r.target = some t) :
    validateRel r = .ok (validRelFilter r) := by
  unfold validateRel validRelFilter
  rw [hs, ht]
  by_cases h1 : s = ""
  · simp [h1]
  · by_cases h2 : t = ""
    · simp [h1, h2]
    · by_cases h3 : s = t
      · simp [h1, h2, h3]
      · simp [h1, h2, h3]

theorem validateRels_spec {rels : List Relation}
    (h : ∀ r ∈ rels, r.source.isSome = true ∧ r.target.isSome = true) :
    validateRels rels = .ok (rels.filterMap validRelFilter) := by
  induction rels with
  | nil => rfl
  | cons r rest ih =>
    obtain ⟨hs, ht⟩ := h r (by simp)
    obtain ⟨s, hs'⟩ := Option.isSome_iff_exists.mp hs
    obtain ⟨t, ht'⟩ := Option.isSome_iff_exists.mp ht
    have ih' := ih (fun r' hr' => h r' (List.mem_cons_of_mem _ hr'))
    simp only [validateRels]
    rw [validateRel_spec hs' ht']
    cases hv : validRelFilter r with
    | some r' => simp [List.filterMap_cons, hv, ih', exceptOkBind]
    | none => simp [List.filterMap_cons, hv, ih', exceptOkBind]

theorem validate_relations_spec {rs : List ExtractionResult} (h : RelationsWF rs) :
    validate_relations rs = .ok (rs.map (fun res =>
      { res with relations := res.relations.filterMap validRelFilter })) := by
  induction rs with
  | nil => rfl
  | cons res rest ih =>
    simp only [validate_relations]
    rw [validateRels_spec (h res (by simp)),
      ih (fun res' hr' r hr2 => h res' (List.mem_cons_of_mem _ hr') r hr2)]
    rfl

/-! ### Claim theorems: canonicalization and validation -/

/-- C2: `canonicalize_entities` builds the first-seen map from
`lowercase(trim(name))` to the first literal name in iteration order,
rewrites every entity name to its mapped canonical value, rewrites each
relation endpoint through the map as built up to and including its own
chunk result exactly when the normalized form is present, and leaves an
endpoint unchanged whenever its normalized name is never seen as an
entity name in the batch. -/
theorem claim_C2 (rs : List ExtractionResult) (h : RelationsWF rs) :
    canonicalize_entities rs = .ok (canonRefAux [] rs) ∧
    (∀ s : String, (∀ res ∈ rs, ∀ e ∈ res.entities, normName e.name ≠ normName s) →
      ∀ k : Nat, canonName (batchFrom [] (rs.take k)) s = s) := by
  constructor
  · exact canonicalize_spec h
  · intro s hs k
    have hnone : lookupProp (batchFrom [] (rs.take k)) (normName s) = none :=
      lookup_batchFrom_none rfl
        (fun res hr e he => hs res (List.take_subset k rs hr) e he)
    unfold canonName
    rw [hnone]

/-- C2 witness: the theorem applied at a concrete well-formed batch. -/
theorem claim_C2_witness : canonicalize_entities exW = .ok (canonRefAux [] exW) :=
  (claim_C2 exW (by decide)).1

/-- C4: `validate_relations` drops relations with empty endpoints, drops
self-loops, keeps empty-typed relations with the fallback type
`RELATED_TO`, and leaves every result's entity list untouched (the
rewriting touches only the `relations` field). -/
theorem claim_C4 (rs : List ExtractionResult) (h : RelationsWF rs) :
    validate_relations rs = .ok (rs.map (fun res =>
      { res with relations := res.relations.filterMap validRelFilter })) ∧
    (∀ r : Relation, ∀ s : String, r.source = some s → r.target = some s →
      validRelFilter r = none) ∧
    (∀ r : Relation, r.source = some "" → validRelFilter r = none) ∧
    (∀ r : Relation, r.target = some "" → validRelFilter r = none) ∧
    (∀ r : Relation, ∀ s t : String, r.source = some s → r.target = some t →
      s ≠ "" → t ≠ "" → s ≠ t → r.type = some "" →
      validRelFilter r = some { r with type := some "RELATED_TO" }) := by
  refine ⟨validate_relations_spec h, ?_, ?_, ?_, ?_⟩
  · intro r s hs ht
    unfold validRelFilter
    rw [hs, ht]
    simp
  · intro r hs
    unfold validRelFilter
    rw [hs]
    cases ht : r.target <;> simp
  · intro r ht
    unfold validRelFilter
    rw [ht]
    cases hs : r.source <;> simp
  · intro r s t hs ht h1 h2 h3 hty
    unfold validRelFilter
    rw [hs, ht, hty]
    simp [h1, h2, h3]

/-- C4 witness: the theorem applied at a concrete well-formed batch. -/
theorem claim_C4_witness :
    validate_relations exW = .ok (exW.map (fun res =>
      { res with relations := res.relations.filterMap validRelFilter })) :=
  (claim_C4 exW (by decide)).1

/-- C10: `canonicalize_entities` and `validate_relations` are
exception-free exactly under the precondition that every relation dict
has both a `source` and a `target` key; on a relation lacking one of
them they raise a `KeyError` (an `Except.error` in this embedding)
instead of dropping the relation. -/
theorem claim_C10 (rs : List ExtractionResult) (h : RelationsWF rs) :
    (canonicalize_entities rs).isOk = true ∧ (validate_relations rs).isOk = true ∧
    (canonicalize_entities [resBadCanon]).isOk = false ∧
    (validate_relations [resBadValidate]).isOk = false := by
  refine ⟨?_, ?_, by decide, by decide⟩
  · rw [canonicalize_spec h]
    rfl
  · rw [validate_relations_spec h]
    rfl

/-- C10 witness: the theorem applied at a concrete well-formed batch. -/
theorem claim_C10_witness :
    (canonicalize_entities exW).isOk = true ∧ (validate_relations exW).isOk = true ∧
    (canonicalize_entities [resBadCanon]).isOk = false ∧
    (validate_relations [resBadValidate]).isOk = false :=
  claim_C10 exW (by decide)


/-! ### Claim theorems: text normalization -/

/-- C5 counterexample: `clean_text` is not idempotent.  On `"a @ b"` the
removal of `@` joins the two surrounding spaces, and a second
application collapses them to one. -/
theorem claim_C5_counterexample :
    clean_text (clean_text "a @ b") ≠ clean_text "a @ b" := by decide

/-- C5 (amended): `clean_text` never fails (it is a total function of its
input) but is not idempotent in general; it stabilizes after one extra
pass: the third application always equals the second. -/
theorem claim_C5 (s : String) :
    clean_text (clean_text (clean_text s)) = clean_text (clean_text s) :=
  congrArg String.mk (cleanL_third_eq_second s.data)


/-! ### Foundation lemmas for the graph writer -/

theorem lookup_map_overwrite {k k' v : String} (h : k' ≠ k) (p : Props) :
    lookupProp (p.map (fun q => if q.1 = k' then (k', v) else q)) k = lookupProp p k := by
  induction p with
  | nil => rfl
  | cons a rest ih =>
    obtain ⟨a1, a2⟩ := a
    by_cases ha : a1 = k'
    · subst ha
      simp only [List.map_cons, if_pos rfl]
      simp [lookupProp, h, ih]
    · simp only [List.map_cons, if_neg ha]
      by_cases hak : a1 = k
      · simp [lookupProp, hak]
      · simp [lookupProp, hak, ih]

theorem lookup_upsert_ne {p : Props} {k k' v : String} (h : k' ≠ k) :
    lookupProp (upsertProp p k' v) k = lookupProp p k := by
  unfold upsertProp
  by_cases hc : (p.any (fun q => q.1 = k')) = true
  · simp only [hc, if_true]
    exact lookup_map_overwrite h p
  · simp only [hc, if_false, Bool.false_eq_true]
    cases hl : lookupProp p k with
    | some w => exact lookupProp_append_left hl _
    | none =>
      rw [lookupProp_append_of_none hl]
      simp [lookupProp, h]

theorem lookup_overlay_not_mem {ps : Props} {k : String}
    (h : ∀ kv ∈ ps, kv.1 ≠ k) (p : Props) :
    lookupProp (overlayProps p ps) k = lookupProp p k := by
  induction ps generalizing p with
  | nil => rfl
  | cons a rest ih =>
    have step : overlayProps p (a :: rest) = overlayProps (upsertProp p a.1 a.2) rest := rfl
    rw [step, ih (fun kv hkv => h kv (List.mem_cons_of_mem _ hkv)),
      lookup_upsert_ne (h a (by simp))]

theorem lookup_none_iff {ps : Props} {k : String} :
    lookupProp ps k = none ↔ ∀ kv ∈ ps, kv.1 ≠ k := by
  induction ps with
  | nil => simp [lookupProp]
  | cons a rest ih =>
    obtain ⟨a1, a2⟩ := a
    by_cases ha : a1 = k
    · simp [lookupProp, ha]
    · simp [lookupProp, ha, ih]

theorem nodeKeyEq_refl (n : Node) : nodeKeyEq n n := ⟨rfl, rfl, rfl⟩

theorem nodeKeyEq_trans {a b c : Node} (h1 : nodeKeyEq a b) (h2 : nodeKeyEq b c) :
    nodeKeyEq a c :=
  ⟨h2.1.trans h1.1, h2.2.1.trans h1.2.1, h2.2.2.trans h1.2.2⟩

theorem edgeKeyEq_refl (e : Edge) : edgeKeyEq e e := ⟨rfl, rfl, rfl⟩

theorem edgeKeyEq_trans {a b c : Edge} (h1 : edgeKeyEq a b) (h2 : edgeKeyEq b c) :
    edgeKeyEq a c :=
  ⟨h2.1.trans h1.1, h2.2.1.trans h1.2.1, h2.2.2.trans h1.2.2⟩

theorem forall2_refl_of {α : Type} {R : α → α → Prop} (h : ∀ x, R x x) (l : List α) :
    List.Forall₂ R l l :=
  List.forall₂_same.mpr (fun x _ => h x)

theorem forall2_trans_of {α : Type} {R : α → α → Prop}
    (htrans : ∀ a b c, R a b → R b c → R a c) :
    ∀ {l1 l2 l3 : List α}, List.Forall₂ R l1 l2 → List.Forall₂ R l2 l3 →
      List.Forall₂ R l1 l3 := by
  intro l1 l2 l3 h12
  induction h12 generalizing l3 with
  | nil => intro h; exact h
  | cons hab h ih =>
    intro h23
    cases h23 with
    | cons hbc h' => exact List.Forall₂.cons (htrans _ _ _ hab hbc) (ih h')

theorem forall2_get? {α : Type} {R : α → α → Prop} :
    ∀ {l1 l2 : List α}, List.Forall₂ R l1 l2 → ∀ {i : Nat} {a : α},
      l1.get? i = some a → ∃ b, l2.get? i = some b ∧ R a b := by
  intro l1 l2 h
  induction h with
  | nil => intro i a ha; simp at ha
  | cons hab hrest ih =>
    intro i a ha
    cases i with
    | zero =>
      rw [List.get?_cons_zero] at ha
      injection ha with ha
      subst ha
      exact ⟨_, by rw [List.get?_cons_zero], hab⟩
    | succ j =>
      rw [List.get?_cons_succ] at ha
      obtain ⟨b, hb, hrb⟩ := ih ha
      exact ⟨b, by rw [List.get?_cons_succ]; exact hb, hrb⟩

theorem idxsWhereAux_congr {p q : Node → Bool} {ns ms : List Node}
    (h : List.Forall₂ (fun a b => q b = p a) ns ms) :
    ∀ i, idxsWhereAux p ns i = idxsWhereAux q ms i := by
  induction h with
  | nil => intro i; rfl
  | @cons a b l1 l2 hab hrest ih =>
    intro i
    simp only [idxsWhereAux, hab]
    by_cases hp : p a = true
    · simp only [hp, if_true, ih]
    · simp only [hp, if_false, Bool.false_eq_true, ih]

theorem idxsWhereAux_append (p : Node → Bool) (ns ms : List Node) :
    ∀ i, idxsWhereAux p (ns ++ ms) i = idxsWhereAux p ns i ++ idxsWhereAux p ms (i + ns.length) := by
  induction ns with
  | nil => intro i; simp [idxsWhereAux]
  | cons n rest ih =>
    intro i
    have harith : i + 1 + rest.length = i + (rest.length + 1) := by omega
    by_cases hp : p n = true
    · simp only [List.cons_append, idxsWhereAux, hp, if_true, List.append_eq, ih (i + 1),
        List.length_cons, harith]
    · simp only [List.cons_append, idxsWhereAux, hp, if_false, Bool.false_eq_true,
        List.append_eq, ih (i + 1), List.length_cons, harith]

theorem mem_idxsWhereAux {p : Node → Bool} :
    ∀ {ns : List Node} {i j : Nat},
      j ∈ idxsWhereAux p ns i ↔ ∃ jj n, j = i + jj ∧ ns.get? jj = some n ∧ p n = true := by
  intro ns
  induction ns with
  | nil => intro i j; simp [idxsWhereAux]
  | cons n rest ih =>
    intro i j
    constructor
    · intro hj
      by_cases hp : p n = true
      · simp only [idxsWhereAux, hp, if_true] at hj
        rcases List.mem_cons.mp hj with hj | hj
        · exact ⟨0, n, by simpa using hj, by rw [List.get?_cons_zero], hp⟩
        · obtain ⟨jj, m, hj1, hj2, hj3⟩ := ih.mp hj
          exact ⟨jj + 1, m, by omega, by rw [List.get?_cons_succ]; exact hj2, hj3⟩
      · simp only [idxsWhereAux, hp, if_false, Bool.false_eq_true] at hj
        obtain ⟨jj, m, hj1, hj2, hj3⟩ := ih.mp hj
        exact ⟨jj + 1, m, by omega, by rw [List.get?_cons_succ]; exact hj2, hj3⟩
    · rintro ⟨jj, m, hj1, hj2, hj3⟩
      cases jj with
      | zero =>
        rw [List.get?_cons_zero] at hj2
        injection hj2 with hj2
        subst hj2
        simp only [idxsWhereAux, hj3, if_true]
        simp [hj1]
      | succ k =>
        rw [List.get?_cons_succ] at hj2
        have hmem : j ∈ idxsWhereAux p rest (i + 1) :=
          ih.mpr ⟨k, m, by omega, hj2, hj3⟩
        by_cases hp : p n = true
        · simp only [idxsWhereAux, hp, if_true]
          exact List.mem_cons_of_mem _ hmem
        · simpa only [idxsWhereAux, hp, if_false, Bool.false_eq_true] using hmem

theorem mem_idxsWhere {p : Node → Bool} {ns : List Node} {j : Nat} :
    j ∈ idxsWhere ns p ↔ ∃ n, ns.get? j = some n ∧ p n = true := by
  unfold idxsWhere
  rw [mem_idxsWhereAux]
  constructor
  · rintro ⟨jj, n, h1, h2, h3⟩
    exact ⟨n, by simpa [h1] using h2, h3⟩
  · rintro ⟨n, h1, h2⟩
    exact ⟨j, n, by omega, h1, h2⟩

theorem nodeLK_eq_of_keyEq {a b : Node} (h : nodeKeyEq a b) {l k v : String}
    (hk : k = "name" ∨ k = "id") : nodeLK l k v b = nodeLK l k v a := by
  obtain ⟨hl, hn, hi⟩ := h
  unfold nodeLK
  rw [hl]
  rcases hk with hk | hk <;> subst hk
  · rw [hn]
  · rw [hi]

theorem nodeN_eq_of_keyEq {a b : Node} (h : nodeKeyEq a b) {v : String} :
    nodeN v b = nodeN v a := by
  obtain ⟨_, hn, _⟩ := h
  unfold nodeN
  rw [hn]

theorem idxsWhere_LK_equiv {w u : GraphState} (h : NodesEquiv w u) {l k v : String}
    (hk : k = "name" ∨ k = "id") :
    idxsWhere u.nodes (nodeLK l k v) = idxsWhere w.nodes (nodeLK l k v) :=
  (idxsWhereAux_congr (h.imp (fun _ _ hab => nodeLK_eq_of_keyEq hab hk)) 0).symm

theorem idxsWhere_N_equiv {w u : GraphState} (h : NodesEquiv w u) {v : String} :
    idxsWhere u.nodes (nodeN v) = idxsWhere w.nodes (nodeN v) :=
  (idxsWhereAux_congr (h.imp (fun _ _ hab => nodeN_eq_of_keyEq hab)) 0).symm

theorem any_edge_congr {es fs : List Edge} (h : List.Forall₂ edgeKeyEq es fs)
    (a b : Nat) (t : String) :
    (fs.any (fun e => e.src == a && e.tgt == b && e.typ == t))
      = (es.any (fun e => e.src == a && e.tgt == b && e.typ == t)) := by
  induction h with
  | nil => rfl
  | cons he hrest ih =>
    obtain ⟨h1, h2, h3⟩ := he
    simp only [List.any_cons, h1, h2, h3, ih]

theorem hasEdge_equiv {w u : GraphState} (h : EdgesEquiv w u) (a b : Nat) (t : String) :
    hasEdge u a b t = hasEdge w a b t :=
  any_edge_congr h a b t

theorem foldl_inv {α β : Type} (P : β → Prop) {l : List α} {f : β → α → β}
    (h : ∀ b a, a ∈ l → P b → P (f b a)) {b : β} (hb : P b) : P (l.foldl f b) := by
  induction l generalizing b with
  | nil => exact hb
  | cons x xs ih =>
    exact ih (fun b' a ha hb' => h b' a (List.mem_cons_of_mem _ ha) hb') (h b x (by simp) hb)


/-! ### Primitive operation lemmas -/

theorem nodesEquiv_refl (s : GraphState) : NodesEquiv s s := forall2_refl_of nodeKeyEq_refl _

theorem edgesEquiv_refl (s : GraphState) : EdgesEquiv s s := forall2_refl_of edgeKeyEq_refl _

theorem stateEquiv_refl (s : GraphState) : StateEquiv s s :=
  ⟨nodesEquiv_refl s, edgesEquiv_refl s⟩

theorem nodesEquiv_trans {a b c : GraphState} (h1 : NodesEquiv a b) (h2 : NodesEquiv b c) :
    NodesEquiv a c :=
  forall2_trans_of (fun a b c (u : nodeKeyEq a b) (v : nodeKeyEq b c) => nodeKeyEq_trans u v) h1 h2

theorem edgesEquiv_trans {a b c : GraphState} (h1 : EdgesEquiv a b) (h2 : EdgesEquiv b c) :
    EdgesEquiv a c :=
  forall2_trans_of (fun a b c (u : edgeKeyEq a b) (v : edgeKeyEq b c) => edgeKeyEq_trans u v) h1 h2

theorem newNode_matches (l k v : String) : nodeLK l k v (Node.mk [l] [(k, v)]) = true := by
  simp [nodeLK, lookupProp]

theorem idxs_append_nomatch {p : Node → Bool} (ns : List Node) {nn : Node}
    (h : p nn = false) : idxsWhere (ns ++ [nn]) p = idxsWhere ns p := by
  unfold idxsWhere
  rw [idxsWhereAux_append]
  simp [idxsWhereAux, h]

theorem mergeNode_cases (s : GraphState) (l k v : String) :
    (idxsWhere s.nodes (nodeLK l k v) ≠ [] ∧
      mergeNode s l k v = (s, idxsWhere s.nodes (nodeLK l k v))) ∨
    (idxsWhere s.nodes (nodeLK l k v) = [] ∧
      mergeNode s l k v =
        ({ s with nodes := s.nodes ++ [Node.mk [l] [(k, v)]] }, [s.nodes.length])) := by
  unfold mergeNode
  cases h : idxsWhere s.nodes (nodeLK l k v) with
  | nil => right; exact ⟨rfl, rfl⟩
  | cons a as => left; exact ⟨by simp, rfl⟩

theorem mergeNode_post (s : GraphState) (l k v : String) :
    (mergeNode s l k v).2 = idxsWhere (mergeNode s l k v).1.nodes (nodeLK l k v) ∧
    (mergeNode s l k v).2 ≠ [] ∧ (mergeNode s l k v).1.edges = s.edges := by
  rcases mergeNode_cases s l k v with ⟨hne, heq⟩ | ⟨hnil, heq⟩
  · rw [heq]
    exact ⟨rfl, hne, rfl⟩
  · rw [heq]
    refine ⟨?_, by simp, rfl⟩
    show [s.nodes.length] = idxsWhere (s.nodes ++ [Node.mk [l] [(k, v)]]) (nodeLK l k v)
    unfold idxsWhere
    rw [idxsWhereAux_append]
    unfold idxsWhere at hnil
    rw [hnil]
    simp [idxsWhereAux, newNode_matches]

theorem mergeNode_no_create {w u : GraphState} (hN : NodesEquiv w u) (l k v : String)
    (hk : k = "name" ∨ k = "id") (hne : idxsWhere w.nodes (nodeLK l k v) ≠ []) :
    mergeNode u l k v = (u, idxsWhere w.nodes (nodeLK l k v)) := by
  have heq : idxsWhere u.nodes (nodeLK l k v) = idxsWhere w.nodes (nodeLK l k v) :=
    idxsWhere_LK_equiv hN hk
  rcases mergeNode_cases u l k v with ⟨hne', h⟩ | ⟨hnil, h⟩
  · rw [h, heq]
  · rw [heq] at hnil
    exact absurd hnil hne

theorem nodeKeyEq_overlay {n : Node} {ps : Props} (hps : SafeProps ps) :
    nodeKeyEq n (Node.mk n.labels (overlayProps n.props ps)) :=
  ⟨rfl, lookup_overlay_not_mem (fun kv hkv => (hps kv hkv).1) _,
    lookup_overlay_not_mem (fun kv hkv => (hps kv hkv).2) _⟩

theorem forall2_set_preserve {R : Node → Node → Prop} (hrefl : ∀ n, R n n) :
    ∀ (ns : List Node) (i : Nat) (n' : Node), R (ns.getD i default) n' →
      List.Forall₂ R ns (ns.set i n') := by
  intro ns
  induction ns with
  | nil => intro i n' _; exact List.Forall₂.nil
  | cons a rest ih =>
    intro i n' h
    cases i with
    | zero =>
      simp only [List.set]
      exact List.Forall₂.cons (by simpa using h) (forall2_refl_of hrefl rest)
    | succ j =>
      simp only [List.set]
      exact List.Forall₂.cons (hrefl a) (ih j n' (by simpa using h))

theorem stateEquiv_setNodeProps {w u : GraphState} (h : StateEquiv w u) {ps : Props}
    (hps : SafeProps ps) (i : Nat) : StateEquiv w (setNodeProps u i ps) := by
  refine ⟨nodesEquiv_trans h.1 ?_, h.2⟩
  exact forall2_set_preserve nodeKeyEq_refl u.nodes i _ (nodeKeyEq_overlay hps)

theorem stateEquiv_setNodesProps {w u : GraphState} (h : StateEquiv w u) {ps : Props}
    (hps : SafeProps ps) (is : List Nat) : StateEquiv w (setNodesProps u is ps) := by
  unfold setNodesProps
  exact foldl_inv (fun st => StateEquiv w st)
    (fun st i _ hst => stateEquiv_setNodeProps hst hps i) h

theorem edges_map_keyEq {es : List Edge} {f : Edge → Edge}
    (hf : ∀ e, edgeKeyEq e (f e)) : List.Forall₂ edgeKeyEq es (es.map f) :=
  List.forall₂_map_right_iff.mpr (List.forall₂_same.mpr (fun e _ => hf e))

theorem mergeEdge_keyEq_fun (a b : Nat) (t : String) (ps : Props) :
    ∀ e : Edge, edgeKeyEq e (if e.src == a && e.tgt == b && e.typ == t then
      { e with props := overlayProps e.props ps } else e) := by
  intro e
  by_cases hc : (e.src == a && e.tgt == b && e.typ == t) = true
  · rw [if_pos hc]
    exact ⟨rfl, rfl, rfl⟩
  · rw [if_neg hc]
    exact edgeKeyEq_refl e

theorem mergeEdge_nodes (s : GraphState) (a b : Nat) (t : String) (ps : Props) :
    (mergeEdge s a b t ps).nodes = s.nodes := by
  unfold mergeEdge
  by_cases h : hasEdge s a b t = true
  · rw [if_pos h]
  · rw [if_neg h]

theorem mergeEdge_edgesMono (s : GraphState) (a b : Nat) (t : String) (ps : Props)
    {x y : Nat} {u' : String} (h : hasEdge s x y u' = true) :
    hasEdge (mergeEdge s a b t ps) x y u' = true := by
  unfold mergeEdge
  by_cases hc : hasEdge s a b t = true
  · rw [if_pos hc]
    show ((s.edges.map _).any _) = true
    rw [any_edge_congr (edges_map_keyEq (mergeEdge_keyEq_fun a b t ps))]
    exact h
  · rw [if_neg hc]
    show ((s.edges ++ _).any _) = true
    rw [List.any_append]
    unfold hasEdge at h
    simp [h]

theorem mergeEdge_ensures (s : GraphState) (a b : Nat) (t : String) (ps : Props) :
    hasEdge (mergeEdge s a b t ps) a b t = true := by
  unfold mergeEdge
  by_cases hc : hasEdge s a b t = true
  · rw [if_pos hc]
    show ((s.edges.map _).any _) = true
    rw [any_edge_congr (edges_map_keyEq (mergeEdge_keyEq_fun a b t ps))]
    exact hc
  · rw [if_neg hc]
    show ((s.edges ++ _).any _) = true
    rw [List.any_append]
    simp

theorem stateEquiv_mergeEdge_no_create {w u : GraphState} (h : StateEquiv w u)
    {a b : Nat} {t : String} (hhas : hasEdge w a b t = true) (ps : Props) :
    StateEquiv w (mergeEdge u a b t ps) := by
  have hu : hasEdge u a b t = true := by
    rw [hasEdge_equiv h.2]
    exact hhas
  constructor
  · show List.Forall₂ nodeKeyEq w.nodes (mergeEdge u a b t ps).nodes
    rw [mergeEdge_nodes]
    exact h.1
  · show List.Forall₂ edgeKeyEq w.edges (mergeEdge u a b t ps).edges
    unfold mergeEdge
    rw [if_pos hu]
    exact edgesEquiv_trans h.2 (edges_map_keyEq (mergeEdge_keyEq_fun a b t ps))

theorem nodesGrow_refl (s : GraphState) : NodesGrow s s :=
  fun _ n h => ⟨n, h, nodeKeyEq_refl n⟩

theorem nodesGrow_trans {a b c : GraphState} (h1 : NodesGrow a b) (h2 : NodesGrow b c) :
    NodesGrow a c := by
  intro i n h
  obtain ⟨n', h', k1⟩ := h1 i n h
  obtain ⟨n'', h'', k2⟩ := h2 i n' h'
  exact ⟨n'', h'', nodeKeyEq_trans k1 k2⟩

theorem nodesGrow_of_forall2 {w : GraphState} {ns : List Node}
    (h : List.Forall₂ nodeKeyEq w.nodes ns) :
    ∀ i n, w.nodes.get? i = some n → ∃ n', ns.get? i = some n' ∧ nodeKeyEq n n' :=
  fun _ n hn => forall2_get? h hn

theorem nodesGrow_append (s : GraphState) (new : List Node) :
    NodesGrow s { s with nodes := s.nodes ++ new } := by
  intro i n h
  refine ⟨n, ?_, nodeKeyEq_refl n⟩
  show (s.nodes ++ new).get? i = some n
  obtain ⟨hlt, _⟩ := List.get?_eq_some.mp h
  rw [List.get?_append hlt]
  exact h

theorem idxs_nonempty_grow {s t : GraphState} (h : NodesGrow s t) {l k v : String}
    (hk : k = "name" ∨ k = "id") (hne : idxsWhere s.nodes (nodeLK l k v) ≠ []) :
    idxsWhere t.nodes (nodeLK l k v) ≠ [] := by
  obtain ⟨j, hj⟩ := List.exists_mem_of_ne_nil _ hne
  obtain ⟨n, hn, hp⟩ := mem_idxsWhere.mp hj
  obtain ⟨n', hn', hkeq⟩ := h j n hn
  have hp' : nodeLK l k v n' = true := by
    rw [nodeLK_eq_of_keyEq hkeq hk]
    exact hp
  exact List.ne_nil_of_mem (mem_idxsWhere.mpr ⟨n', hn', hp'⟩)

theorem edgesMono_refl (s : GraphState) : EdgesMono s s := fun _ _ _ h => h

theorem edgesMono_trans {a b c : GraphState} (h1 : EdgesMono a b) (h2 : EdgesMono b c) :
    EdgesMono a c := fun x y t h => h2 x y t (h1 x y t h)

theorem edgesMono_of_eq {s t : GraphState} (h : t.edges = s.edges) : EdgesMono s t := by
  intro a b ty hh
  unfold hasEdge at hh ⊢
  rw [h]
  exact hh

theorem keepsId_refl (s : GraphState) : KeepsIdPatterns s s := fun _ _ => rfl

theorem keepsId_trans {a b c : GraphState} (h1 : KeepsIdPatterns a b) (h2 : KeepsIdPatterns b c) :
    KeepsIdPatterns a c := fun l v => (h2 l v).trans (h1 l v)

theorem keepsId_of_nodesEquiv {s t : GraphState} (h : NodesEquiv s t) : KeepsIdPatterns s t :=
  fun l v => idxsWhere_LK_equiv h (Or.inr rfl)


/-! ### Replay lemmas: a saturated write leaves the state equivalent -/

theorem document_replay {w u : GraphState} {docId : String} (h : StateEquiv w u)
    (hsat : DocSat w docId) : apply_document docId u = u := by
  unfold apply_document
  rw [mergeNode_no_create h.1 _ _ _ (Or.inr rfl) hsat]

theorem sections_replay {w u : GraphState} {docId : String} {rows : List Chunk}
    (h : StateEquiv w u) (hsat : SectionsSat w docId rows) :
    StateEquiv w (apply_sections docId rows u) := by
  unfold apply_sections
  refine foldl_inv (fun st => StateEquiv w st) ?_ h
  intro st row hrow hst
  unfold apply_section_row
  have hds : idxsWhere st.nodes (nodeLK "Document" "id" docId)
      = idxsWhere w.nodes (nodeLK "Document" "id" docId) := idxsWhere_LK_equiv hst.1 (Or.inr rfl)
  rw [hds]
  refine foldl_inv (fun st => StateEquiv w st) ?_ hst
  intro st2 d hd hst2
  unfold apply_section_d
  obtain ⟨hne, hedges⟩ := hsat row hrow
  have hmerge : mergeNode st2 "Section" "id" row.id
      = (st2, idxsWhere w.nodes (nodeLK "Section" "id" row.id)) :=
    mergeNode_no_create hst2.1 _ _ _ (Or.inr rfl) (hne (List.ne_nil_of_mem hd))
  rw [hmerge]
  have hset : StateEquiv w (setNodesProps st2
      (idxsWhere w.nodes (nodeLK "Section" "id" row.id)) [("text", row.text)]) :=
    stateEquiv_setNodesProps hst2 (by
      intro kv hkv
      simp only [List.mem_singleton] at hkv
      subst hkv
      exact ⟨show "text" ≠ "name" by decide, show "text" ≠ "id" by decide⟩) _
  refine foldl_inv (fun st => StateEquiv w st) ?_ hset
  intro st3 b hb hst3
  exact stateEquiv_mergeEdge_no_create hst3 (hedges d hd b hb) _

theorem entities_replay {w u : GraphState} {groups : List (String × List EntityRow)}
    (h : StateEquiv w u) (hsat : EntitySat w groups)
    (hsafe : ∀ g ∈ groups, ∀ row ∈ g.2, SafeProps row.props) :
    StateEquiv w (groups.foldl (fun st g => apply_entity_batch g.1 g.2 st) u) := by
  refine foldl_inv (fun st => StateEquiv w st) ?_ h
  intro st g hg hst
  unfold apply_entity_batch
  refine foldl_inv (fun st => StateEquiv w st) ?_ hst
  intro st2 row hrow hst2
  unfold apply_entity_row
  have hmerge := mergeNode_no_create hst2.1 g.1 "name" row.name (Or.inl rfl) (hsat g hg row hrow)
  rw [hmerge]
  exact stateEquiv_setNodesProps hst2 (hsafe g hg row hrow) _

theorem relations_replay {w u : GraphState} {groups : List (String × List Relation)}
    (h : StateEquiv w u) (hsat : RelationSat w groups) :
    StateEquiv w (groups.foldl (fun st g => apply_relation_batch g.1 g.2 st) u) := by
  refine foldl_inv (fun st => StateEquiv w st) ?_ h
  intro st g hg hst
  unfold apply_relation_batch
  refine foldl_inv (fun st => StateEquiv w st) ?_ hst
  intro st2 r hr hst2
  unfold apply_relation_row
  have hsrc : nameIdxs st2 r.source = nameIdxs w r.source := by
    cases hs : r.source with
    | none => simp [nameIdxs]
    | some x =>
      simp only [nameIdxs]
      exact idxsWhere_N_equiv hst2.1
  have htgt : nameIdxs st2 r.target = nameIdxs w r.target := by
    cases hs : r.target with
    | none => simp [nameIdxs]
    | some x =>
      simp only [nameIdxs]
      exact idxsWhere_N_equiv hst2.1
  rw [hsrc, htgt]
  refine foldl_inv (fun st => StateEquiv w st) ?_ hst2
  intro st3 a ha hst3
  refine foldl_inv (fun st => StateEquiv w st) ?_ hst3
  intro st4 b hb hst4
  exact stateEquiv_mergeEdge_no_create hst4 (hsat g hg r hr a ha b hb) _

theorem mentions_replay {w u : GraphState} {pages : List (List MentionRow)}
    (h : StateEquiv w u) (hsat : MentionSat w pages) :
    StateEquiv w (pages.foldl (fun st p => apply_mentions_page p st) u) := by
  refine foldl_inv (fun st => StateEquiv w st) ?_ h
  intro st p hp hst
  unfold apply_mentions_page
  refine foldl_inv (fun st => StateEquiv w st) ?_ hst
  intro st2 row hrow hst2
  unfold apply_mention_row
  rw [idxsWhere_LK_equiv hst2.1 (Or.inr rfl), idxsWhere_N_equiv hst2.1]
  refine foldl_inv (fun st => StateEquiv w st) ?_ hst2
  intro st3 a ha hst3
  refine foldl_inv (fun st => StateEquiv w st) ?_ hst3
  intro st4 b hb hst4
  exact stateEquiv_mergeEdge_no_create hst4 (hsat p hp row hrow a ha b hb) _


/-! ### First-run establishment lemmas -/

theorem nodesGrow_of_nodes_eq {s t : GraphState} (h : t.nodes = s.nodes) : NodesGrow s t := by
  intro i n hn
  refine ⟨n, ?_, nodeKeyEq_refl n⟩
  rw [h]
  exact hn

theorem nodesEquiv_nodes_eq {s t : GraphState} (h : t.nodes = s.nodes) : NodesEquiv s t := by
  show List.Forall₂ nodeKeyEq s.nodes t.nodes
  rw [h]
  exact forall2_refl_of nodeKeyEq_refl _

theorem setNodesProps_edges (u : GraphState) (is : List Nat) (ps : Props) :
    (setNodesProps u is ps).edges = u.edges := by
  unfold setNodesProps
  refine foldl_inv (fun (st : GraphState) => st.edges = u.edges) ?_ rfl
  intro st i _ hst
  unfold setNodeProps
  exact hst

theorem apply_document_post (docId : String) (s : GraphState) :
    DocSat (apply_document docId s) docId ∧ NodesGrow s (apply_document docId s) ∧
    (apply_document docId s).edges = s.edges := by
  obtain ⟨hidx, hne, hedges⟩ := mergeNode_post s "Document" "id" docId
  refine ⟨?_, ?_, hedges⟩
  · unfold DocSat apply_document
    rw [← hidx]
    exact hne
  · unfold apply_document
    rcases mergeNode_cases s "Document" "id" docId with ⟨_, heq⟩ | ⟨_, heq⟩
    · rw [heq]
      exact nodesGrow_refl s
    · rw [heq]
      exact nodesGrow_append s _

theorem edge_fold_inner (t : String) (ps : Props) (a : Nat) :
    ∀ (ts : List Nat) (s : GraphState),
      ((ts.foldl (fun s2 b => mergeEdge s2 a b t ps) s).nodes = s.nodes) ∧
      EdgesMono s (ts.foldl (fun s2 b => mergeEdge s2 a b t ps) s) ∧
      ∀ b ∈ ts, hasEdge (ts.foldl (fun s2 b => mergeEdge s2 a b t ps) s) a b t = true := by
  intro ts
  induction ts with
  | nil => intro s; exact ⟨rfl, edgesMono_refl s, by simp⟩
  | cons b rest ih =>
    intro s
    obtain ⟨hn, hm, hens⟩ := ih (mergeEdge s a b t ps)
    refine ⟨?_, ?_, ?_⟩
    · rw [List.foldl_cons, hn, mergeEdge_nodes]
    · rw [List.foldl_cons]
      exact edgesMono_trans (fun x y u h => mergeEdge_edgesMono s a b t ps h) hm
    · intro b' hb'
      rw [List.foldl_cons]
      rcases List.mem_cons.mp hb' with hb' | hb'
      · rw [hb']
        exact hm _ _ _ (mergeEdge_ensures s a b t ps)
      · exact hens b' hb'

theorem edge_fold_pairs (t : String) (ps : Props) :
    ∀ (as bs : List Nat) (s : GraphState),
      ((as.foldl (fun s1 a => bs.foldl (fun s2 b => mergeEdge s2 a b t ps) s1) s).nodes = s.nodes) ∧
      EdgesMono s (as.foldl (fun s1 a => bs.foldl (fun s2 b => mergeEdge s2 a b t ps) s1) s) ∧
      ∀ a ∈ as, ∀ b ∈ bs,
        hasEdge (as.foldl (fun s1 a => bs.foldl (fun s2 b => mergeEdge s2 a b t ps) s1) s) a b t = true := by
  intro as bs
  induction as with
  | nil => intro s; exact ⟨rfl, edgesMono_refl s, by simp⟩
  | cons a rest ih =>
    intro s
    obtain ⟨hn1, hm1, hens1⟩ := edge_fold_inner t ps a bs s
    obtain ⟨hn2, hm2, hens2⟩ := ih (bs.foldl (fun s2 b => mergeEdge s2 a b t ps) s)
    refine ⟨?_, ?_, ?_⟩
    · rw [List.foldl_cons, hn2, hn1]
    · rw [List.foldl_cons]
      exact edgesMono_trans hm1 hm2
    · intro a' ha' b hb
      rw [List.foldl_cons]
      rcases List.mem_cons.mp ha' with ha' | ha'
      · rw [ha']
        exact hm2 _ _ _ (hens1 b hb)
      · exact hens2 a' ha' b hb

theorem newSection_no_match {l v : String} (row : Chunk)
    (h : l ≠ "Section" ∨ v ≠ row.id) :
    nodeLK l "id" v (Node.mk ["Section"] [("id", row.id)]) = false := by
  unfold nodeLK
  rcases h with h | h
  · have hc : (["Section"] : List String).contains l = false := by
      simp [List.contains, h.symm]
      exact h
    rw [hc]
    rfl
  · have : (lookupProp [("id", row.id)] "id" == some v) = false := by
      simp [lookupProp]
      exact fun hc => h hc.symm
    rw [this]
    simp


theorem section_d_tail (row : Chunk) (d : Nat) (st1 : GraphState) (I : List Nat) :
    NodesGrow st1 (I.foldl (fun s2 b => mergeEdge s2 d b "HAS_SECTION" [])
      (setNodesProps st1 I [("text", row.text)])) ∧
    (∀ p : Node → Bool, (∀ a b : Node, nodeKeyEq a b → p b = p a) →
      idxsWhere (I.foldl (fun s2 b => mergeEdge s2 d b "HAS_SECTION" [])
        (setNodesProps st1 I [("text", row.text)])).nodes p = idxsWhere st1.nodes p) ∧
    EdgesMono st1 (I.foldl (fun s2 b => mergeEdge s2 d b "HAS_SECTION" [])
      (setNodesProps st1 I [("text", row.text)])) ∧
    ∀ b ∈ I, hasEdge (I.foldl (fun s2 b => mergeEdge s2 d b "HAS_SECTION" [])
      (setNodesProps st1 I [("text", row.text)])) d b "HAS_SECTION" = true := by
  have htext : SafeProps [("text", row.text)] := by
    intro kv hkv
    simp only [List.mem_singleton] at hkv
    subst hkv
    exact ⟨show "text" ≠ "name" by decide, show "text" ≠ "id" by decide⟩
  have hset : StateEquiv st1 (setNodesProps st1 I [("text", row.text)]) :=
    stateEquiv_setNodesProps (stateEquiv_refl st1) htext I
  obtain ⟨hfn, hfm, hfens⟩ := edge_fold_inner "HAS_SECTION" [] d I
    (setNodesProps st1 I [("text", row.text)])
  refine ⟨?_, ?_, ?_, hfens⟩
  · exact nodesGrow_trans (fun i n hn => forall2_get? hset.1 hn) (nodesGrow_of_nodes_eq hfn)
  · intro p hp
    rw [hfn]
    exact (idxsWhereAux_congr (hset.1.imp (fun a b hab => hp a b hab)) 0).symm
  · exact edgesMono_trans (edgesMono_of_eq (setNodesProps_edges st1 I _)) hfm

theorem section_d_facts (row : Chunk) (st : GraphState) (d : Nat) :
    NodesGrow st (apply_section_d row st d) ∧
    (∀ l v : String, (l ≠ "Section" ∨ v ≠ row.id) →
      idxsWhere (apply_section_d row st d).nodes (nodeLK l "id" v)
        = idxsWhere st.nodes (nodeLK l "id" v)) ∧
    (idxsWhere st.nodes (nodeLK "Section" "id" row.id) ≠ [] →
      idxsWhere (apply_section_d row st d).nodes (nodeLK "Section" "id" row.id)
        = idxsWhere st.nodes (nodeLK "Section" "id" row.id)) ∧
    EdgesMono st (apply_section_d row st d) ∧
    idxsWhere (apply_section_d row st d).nodes (nodeLK "Section" "id" row.id) ≠ [] ∧
    (∀ b ∈ idxsWhere (apply_section_d row st d).nodes (nodeLK "Section" "id" row.id),
      hasEdge (apply_section_d row st d) d b "HAS_SECTION" = true) := by
  obtain ⟨hpidx, hpne, hpedges⟩ := mergeNode_post st "Section" "id" row.id
  unfold apply_section_d
  rcases mergeNode_cases st "Section" "id" row.id with ⟨hne, hmerge⟩ | ⟨hnil, hmerge⟩
  · rw [hmerge]
    obtain ⟨t1, t2, t3, t4⟩ := section_d_tail row d st
      (idxsWhere st.nodes (nodeLK "Section" "id" row.id))
    have hLK : ∀ l v : String,
        idxsWhere ((idxsWhere st.nodes (nodeLK "Section" "id" row.id)).foldl
          (fun s2 b => mergeEdge s2 d b "HAS_SECTION" [])
          (setNodesProps st (idxsWhere st.nodes (nodeLK "Section" "id" row.id))
            [("text", row.text)])).nodes (nodeLK l "id" v)
          = idxsWhere st.nodes (nodeLK l "id" v) :=
      fun l v => t2 (nodeLK l "id" v) (fun a b hab => nodeLK_eq_of_keyEq hab (Or.inr rfl))
    refine ⟨t1, fun l v _ => hLK l v, fun _ => hLK "Section" row.id, t3, ?_, ?_⟩
    · rw [hLK "Section" row.id]
      exact hne
    · intro b hb
      rw [hLK "Section" row.id] at hb
      exact t4 b hb
  · rw [hmerge]
    rw [hmerge] at hpidx
    obtain ⟨t1, t2, t3, t4⟩ := section_d_tail row d
      { st with nodes := st.nodes ++ [Node.mk ["Section"] [("id", row.id)]] } [st.nodes.length]
    have hLK : ∀ l v : String,
        idxsWhere (([st.nodes.length].foldl
          (fun s2 b => mergeEdge s2 d b "HAS_SECTION" [])
          (setNodesProps { st with nodes := st.nodes ++ [Node.mk ["Section"] [("id", row.id)]] }
            [st.nodes.length] [("text", row.text)])).nodes) (nodeLK l "id" v)
          = idxsWhere (st.nodes ++ [Node.mk ["Section"] [("id", row.id)]]) (nodeLK l "id" v) :=
      fun l v => t2 (nodeLK l "id" v) (fun a b hab => nodeLK_eq_of_keyEq hab (Or.inr rfl))
    have hsecNew : idxsWhere (st.nodes ++ [Node.mk ["Section"] [("id", row.id)]])
        (nodeLK "Section" "id" row.id) = [st.nodes.length] := hpidx.symm
    refine ⟨?_, ?_, ?_, ?_, ?_, ?_⟩
    · exact nodesGrow_trans (nodesGrow_append st _) t1
    · intro l v hc
      rw [hLK l v]
      exact idxs_append_nomatch st.nodes (newSection_no_match row hc)
    · intro hpre
      exact absurd hnil hpre
    · exact edgesMono_trans (edgesMono_of_eq rfl) t3
    · rw [hLK "Section" row.id, hsecNew]
      simp
    · intro b hb
      rw [hLK "Section" row.id, hsecNew] at hb
      exact t4 b hb

theorem section_row_fold (row : Chunk) :
    ∀ (ds : List Nat) (st : GraphState),
      NodesGrow st (ds.foldl (apply_section_d row) st) ∧
      (∀ l v : String, (l ≠ "Section" ∨ v ≠ row.id) →
        idxsWhere (ds.foldl (apply_section_d row) st).nodes (nodeLK l "id" v)
          = idxsWhere st.nodes (nodeLK l "id" v)) ∧
      (idxsWhere st.nodes (nodeLK "Section" "id" row.id) ≠ [] →
        idxsWhere (ds.foldl (apply_section_d row) st).nodes (nodeLK "Section" "id" row.id)
          = idxsWhere st.nodes (nodeLK "Section" "id" row.id)) ∧
      EdgesMono st (ds.foldl (apply_section_d row) st) ∧
      (ds ≠ [] →
        idxsWhere (ds.foldl (apply_section_d row) st).nodes (nodeLK "Section" "id" row.id) ≠ []) ∧
      ∀ d ∈ ds, ∀ b ∈ idxsWhere (ds.foldl (apply_section_d row) st).nodes
          (nodeLK "Section" "id" row.id),
        hasEdge (ds.foldl (apply_section_d row) st) d b "HAS_SECTION" = true := by
  intro ds
  induction ds with
  | nil =>
    intro st
    exact ⟨nodesGrow_refl st, fun _ _ _ => rfl, fun _ => rfl, edgesMono_refl st,
      fun h => absurd rfl h, by simp⟩
  | cons d rest ih =>
    intro st
    obtain ⟨d1, d2, d3, d4, d5, d6⟩ := section_d_facts row st d
    obtain ⟨i1, i2, i3, i4, i5, i6⟩ := ih (apply_section_d row st d)
    rw [List.foldl_cons]
    refine ⟨nodesGrow_trans d1 i1, ?_, ?_, edgesMono_trans d4 i4, ?_, ?_⟩
    · intro l v hc
      rw [i2 l v hc, d2 l v hc]
    · intro hpre
      have h1 : idxsWhere (apply_section_d row st d).nodes (nodeLK "Section" "id" row.id)
          = idxsWhere st.nodes (nodeLK "Section" "id" row.id) := d3 hpre
      rw [i3 (by rw [h1]; exact hpre), h1]
    · intro _
      rw [i3 d5]
      exact d5
    · intro d' hd' b hb
      rcases List.mem_cons.mp hd' with hd' | hd'
      · rw [i3 d5] at hb
        rw [hd']
        exact i4 _ _ _ (d6 b hb)
      · exact i6 d' hd' b hb

theorem sections_establish (docId : String) :
    ∀ (rows : List Chunk) (st : GraphState),
      NodesGrow st (apply_sections docId rows st) ∧
      (∀ l v : String, l ≠ "Section" →
        idxsWhere (apply_sections docId rows st).nodes (nodeLK l "id" v)
          = idxsWhere st.nodes (nodeLK l "id" v)) ∧
      (∀ x : String, idxsWhere st.nodes (nodeLK "Section" "id" x) ≠ [] →
        idxsWhere (apply_sections docId rows st).nodes (nodeLK "Section" "id" x)
          = idxsWhere st.nodes (nodeLK "Section" "id" x)) ∧
      EdgesMono st (apply_sections docId rows st) ∧
      SectionsSat (apply_sections docId rows st) docId rows := by
  intro rows
  induction rows with
  | nil =>
    intro st
    exact ⟨nodesGrow_refl st, fun _ _ _ => rfl, fun _ _ => rfl, edgesMono_refl st,
      by simp [SectionsSat]⟩
  | cons row rest ih =>
    intro st
    obtain ⟨g1, g2, g3, g4, g5, g6⟩ :=
      section_row_fold row (idxsWhere st.nodes (nodeLK "Document" "id" docId)) st
    obtain ⟨i1, i2, i3, i4, i5⟩ := ih (apply_section_row docId st row)
    have hfold : apply_sections docId (row :: rest) st
        = apply_sections docId rest (apply_section_row docId st row) := rfl
    have G1 : NodesGrow st (apply_section_row docId st row) := g1
    have G2 : ∀ l v : String, (l ≠ "Section" ∨ v ≠ row.id) →
        idxsWhere (apply_section_row docId st row).nodes (nodeLK l "id" v)
          = idxsWhere st.nodes (nodeLK l "id" v) := g2
    have G3 : idxsWhere st.nodes (nodeLK "Section" "id" row.id) ≠ [] →
        idxsWhere (apply_section_row docId st row).nodes (nodeLK "Section" "id" row.id)
          = idxsWhere st.nodes (nodeLK "Section" "id" row.id) := g3
    have G4 : EdgesMono st (apply_section_row docId st row) := g4
    have G5 : idxsWhere st.nodes (nodeLK "Document" "id" docId) ≠ [] →
        idxsWhere (apply_section_row docId st row).nodes (nodeLK "Section" "id" row.id) ≠ [] := g5
    have G6 : ∀ d ∈ idxsWhere st.nodes (nodeLK "Document" "id" docId),
        ∀ b ∈ idxsWhere (apply_section_row docId st row).nodes (nodeLK "Section" "id" row.id),
        hasEdge (apply_section_row docId st row) d b "HAS_SECTION" = true := g6
    rw [hfold]
    have hstepSec : ∀ x : String,
        idxsWhere st.nodes (nodeLK "Section" "id" x) ≠ [] →
        idxsWhere (apply_section_row docId st row).nodes (nodeLK "Section" "id" x)
          = idxsWhere st.nodes (nodeLK "Section" "id" x) := by
      intro x hx
      by_cases hxid : x = row.id
      · subst hxid
        exact G3 hx
      · exact G2 "Section" x (Or.inr hxid)
    have hdocEqRow : idxsWhere (apply_section_row docId st row).nodes
        (nodeLK "Document" "id" docId) = idxsWhere st.nodes (nodeLK "Document" "id" docId) :=
      G2 "Document" docId (Or.inl (by decide))
    have hdocEq : idxsWhere (apply_sections docId rest (apply_section_row docId st row)).nodes
        (nodeLK "Document" "id" docId) = idxsWhere st.nodes (nodeLK "Document" "id" docId) := by
      rw [i2 "Document" docId (by decide), hdocEqRow]
    refine ⟨nodesGrow_trans G1 i1, ?_, ?_, edgesMono_trans G4 i4, ?_⟩
    · intro l v hl
      rw [i2 l v hl, G2 l v (Or.inl hl)]
    · intro x hx
      have hs : idxsWhere (apply_section_row docId st row).nodes (nodeLK "Section" "id" x)
          = idxsWhere st.nodes (nodeLK "Section" "id" x) := hstepSec x hx
      rw [i3 x (by rw [hs]; exact hx), hs]
    · intro r hr
      rcases List.mem_cons.mp hr with hr | hr
      · subst hr
        constructor
        · intro hdocne
          rw [hdocEq] at hdocne
          have hsec1 : idxsWhere (apply_section_row docId st r).nodes
              (nodeLK "Section" "id" r.id) ≠ [] := G5 hdocne
          rw [i3 r.id hsec1]
          exact hsec1
        · intro a ha b hb
          rw [hdocEq] at ha
          have hdocne : idxsWhere st.nodes (nodeLK "Document" "id" docId) ≠ [] :=
            List.ne_nil_of_mem ha
          have hsec1 : idxsWhere (apply_section_row docId st r).nodes
              (nodeLK "Section" "id" r.id) ≠ [] := G5 hdocne
          rw [i3 r.id hsec1] at hb
          exact i4 a b "HAS_SECTION" (G6 a ha b hb)
      · exact i5 r hr


theorem newEntity_no_id_match (etype nm l v : String) :
    nodeLK l "id" v (Node.mk [etype] [("name", nm)]) = false := by
  simp [nodeLK, lookupProp]

theorem entity_row_facts (etype : String) (row : EntityRow) (st : GraphState)
    (hsafe : SafeProps row.props) :
    NodesGrow st (apply_entity_row etype st row) ∧
    KeepsIdPatterns st (apply_entity_row etype st row) ∧
    (apply_entity_row etype st row).edges = st.edges ∧
    idxsWhere (apply_entity_row etype st row).nodes (nodeLK etype "name" row.name) ≠ [] := by
  obtain ⟨hpidx, hpne, hpedges⟩ := mergeNode_post st etype "name" row.name
  unfold apply_entity_row
  rcases mergeNode_cases st etype "name" row.name with ⟨hne, hmerge⟩ | ⟨hnil, hmerge⟩
  · rw [hmerge]
    have hset : StateEquiv st (setNodesProps st
        (idxsWhere st.nodes (nodeLK etype "name" row.name)) row.props) :=
      stateEquiv_setNodesProps (stateEquiv_refl st) hsafe _
    refine ⟨fun i n hn => forall2_get? hset.1 hn, keepsId_of_nodesEquiv hset.1,
      setNodesProps_edges st _ row.props, ?_⟩
    rw [idxsWhere_LK_equiv hset.1 (Or.inl rfl)]
    exact hne
  · rw [hmerge]
    rw [hmerge] at hpidx
    have hset : StateEquiv { st with nodes := st.nodes ++ [Node.mk [etype] [("name", row.name)]] }
        (setNodesProps { st with nodes := st.nodes ++ [Node.mk [etype] [("name", row.name)]] }
          [st.nodes.length] row.props) :=
      stateEquiv_setNodesProps
        (stateEquiv_refl { st with nodes := st.nodes ++ [Node.mk [etype] [("name", row.name)]] })
        hsafe _
    refine ⟨?_, ?_, ?_, ?_⟩
    · exact nodesGrow_trans (nodesGrow_append st _) (fun i n hn => forall2_get? hset.1 hn)
    · refine keepsId_trans ?_ (keepsId_of_nodesEquiv hset.1)
      intro l v
      exact idxs_append_nomatch st.nodes (newEntity_no_id_match etype row.name l v)
    · exact (setNodesProps_edges _ _ row.props).trans rfl
    · rw [idxsWhere_LK_equiv hset.1 (Or.inl rfl), ← hpidx]
      simp

theorem entity_batch_facts (etype : String) :
    ∀ (batch : List EntityRow) (s0 : GraphState),
      (∀ row ∈ batch, SafeProps row.props) →
      NodesGrow s0 (apply_entity_batch etype batch s0) ∧
      KeepsIdPatterns s0 (apply_entity_batch etype batch s0) ∧
      (apply_entity_batch etype batch s0).edges = s0.edges ∧
      ∀ row ∈ batch,
        idxsWhere (apply_entity_batch etype batch s0).nodes (nodeLK etype "name" row.name) ≠ [] := by
  intro batch
  induction batch with
  | nil => intro s0 _; exact ⟨nodesGrow_refl s0, keepsId_refl s0, rfl, by simp⟩
  | cons row rest ih =>
    intro s0 hsafe
    obtain ⟨r1, r2, r3, r4⟩ := entity_row_facts etype row s0 (hsafe row (List.mem_cons_self row rest))
    obtain ⟨i1, i2, i3, i4⟩ := ih (apply_entity_row etype s0 row)
      (fun r hr => hsafe r (List.mem_cons_of_mem row hr))
    have hfold : apply_entity_batch etype (row :: rest) s0
        = apply_entity_batch etype rest (apply_entity_row etype s0 row) := rfl
    rw [hfold]
    refine ⟨nodesGrow_trans r1 i1, keepsId_trans r2 i2, i3.trans r3, ?_⟩
    intro r hr
    rcases List.mem_cons.mp hr with hr | hr
    · subst hr
      exact idxs_nonempty_grow i1 (Or.inl rfl) r4
    · exact i4 r hr

theorem entity_phase_facts :
    ∀ (groups : List (String × List EntityRow)) (s0 : GraphState),
      (∀ g ∈ groups, ∀ row ∈ g.2, SafeProps row.props) →
      NodesGrow s0 (groups.foldl (fun st g => apply_entity_batch g.1 g.2 st) s0) ∧
      KeepsIdPatterns s0 (groups.foldl (fun st g => apply_entity_batch g.1 g.2 st) s0) ∧
      (groups.foldl (fun st g => apply_entity_batch g.1 g.2 st) s0).edges = s0.edges ∧
      EntitySat (groups.foldl (fun st g => apply_entity_batch g.1 g.2 st) s0) groups := by
  intro groups
  induction groups with
  | nil =>
    intro s0 _
    exact ⟨nodesGrow_refl s0, keepsId_refl s0, rfl, by simp [EntitySat]⟩
  | cons g rest ih =>
    intro s0 hsafe
    obtain ⟨b1, b2, b3, b4⟩ := entity_batch_facts g.1 g.2 s0 (hsafe g (List.mem_cons_self g rest))
    obtain ⟨i1, i2, i3, i4⟩ := ih (apply_entity_batch g.1 g.2 s0)
      (fun g2 hg2 => hsafe g2 (List.mem_cons_of_mem g hg2))
    rw [List.foldl_cons]
    refine ⟨nodesGrow_trans b1 i1, keepsId_trans b2 i2, i3.trans b3, ?_⟩
    intro g2 hg2 row hrow
    rcases List.mem_cons.mp hg2 with hg2 | hg2
    · subst hg2
      exact idxs_nonempty_grow i1 (Or.inl rfl) (b4 row hrow)
    · exact i4 g2 hg2 row hrow

theorem nameIdxs_congr {st u : GraphState} (h : u.nodes = st.nodes) (v : Option String) :
    nameIdxs u v = nameIdxs st v := by
  cases v with
  | none => rfl
  | some x =>
    simp only [nameIdxs]
    rw [h]

theorem relation_row_facts (rtype : String) (r : Relation) (st : GraphState) :
    (apply_relation_row rtype st r).nodes = st.nodes ∧
    EdgesMono st (apply_relation_row rtype st r) ∧
    ∀ a ∈ nameIdxs st r.source, ∀ b ∈ nameIdxs st r.target,
      hasEdge (apply_relation_row rtype st r) a b rtype = true := by
  unfold apply_relation_row
  exact edge_fold_pairs rtype r.props (nameIdxs st r.source) (nameIdxs st r.target) st

theorem relation_batch_facts (rtype : String) :
    ∀ (batch : List Relation) (s0 : GraphState),
      (apply_relation_batch rtype batch s0).nodes = s0.nodes ∧
      EdgesMono s0 (apply_relation_batch rtype batch s0) ∧
      ∀ r ∈ batch, ∀ a ∈ nameIdxs s0 r.source, ∀ b ∈ nameIdxs s0 r.target,
        hasEdge (apply_relation_batch rtype batch s0) a b rtype = true := by
  intro batch
  induction batch with
  | nil => intro s0; exact ⟨rfl, edgesMono_refl s0, by simp⟩
  | cons r rest ih =>
    intro s0
    obtain ⟨r1, r2, r3⟩ := relation_row_facts rtype r s0
    obtain ⟨i1, i2, i3⟩ := ih (apply_relation_row rtype s0 r)
    have hfold : apply_relation_batch rtype (r :: rest) s0
        = apply_relation_batch rtype rest (apply_relation_row rtype s0 r) := rfl
    rw [hfold]
    refine ⟨i1.trans r1, edgesMono_trans r2 i2, ?_⟩
    intro r2x hr2 a ha b hb
    rcases List.mem_cons.mp hr2 with hr2 | hr2
    · subst hr2
      exact i2 a b rtype (r3 a ha b hb)
    · rw [← nameIdxs_congr r1 r2x.source] at ha
      rw [← nameIdxs_congr r1 r2x.target] at hb
      exact i3 r2x hr2 a ha b hb

theorem relation_phase_facts :
    ∀ (groups : List (String × List Relation)) (s0 : GraphState),
      ((groups.foldl (fun st g => apply_relation_batch g.1 g.2 st) s0).nodes = s0.nodes) ∧
      EdgesMono s0 (groups.foldl (fun st g => apply_relation_batch g.1 g.2 st) s0) ∧
      ∀ g ∈ groups, ∀ r ∈ g.2, ∀ a ∈ nameIdxs s0 r.source, ∀ b ∈ nameIdxs s0 r.target,
        hasEdge (groups.foldl (fun st g => apply_relation_batch g.1 g.2 st) s0) a b g.1 = true := by
  intro groups
  induction groups with
  | nil => intro s0; exact ⟨rfl, edgesMono_refl s0, by simp⟩
  | cons g rest ih =>
    intro s0
    obtain ⟨b1, b2, b3⟩ := relation_batch_facts g.1 g.2 s0
    obtain ⟨i1, i2, i3⟩ := ih (apply_relation_batch g.1 g.2 s0)
    rw [List.foldl_cons]
    refine ⟨i1.trans b1, edgesMono_trans b2 i2, ?_⟩
    intro g2 hg2 r hr a ha b hb
    rcases List.mem_cons.mp hg2 with hg2 | hg2
    · subst hg2
      exact i2 a b _ (b3 r hr a ha b hb)
    · rw [← nameIdxs_congr b1 r.source] at ha
      rw [← nameIdxs_congr b1 r.target] at hb
      exact i3 g2 hg2 r hr a ha b hb

theorem mention_row_facts (row : MentionRow) (s0 : GraphState) :
    (apply_mention_row s0 row).nodes = s0.nodes ∧
    EdgesMono s0 (apply_mention_row s0 row) ∧
    ∀ a ∈ idxsWhere s0.nodes (nodeLK "Section" "id" row.chunk_id),
      ∀ b ∈ idxsWhere s0.nodes (nodeN row.entity_name),
        hasEdge (apply_mention_row s0 row) a b "MENTIONS" = true := by
  unfold apply_mention_row
  exact edge_fold_pairs "MENTIONS" []
    (idxsWhere s0.nodes (nodeLK "Section" "id" row.chunk_id))
    (idxsWhere s0.nodes (nodeN row.entity_name)) s0

theorem mention_page_facts :
    ∀ (page : List MentionRow) (s0 : GraphState),
      (apply_mentions_page page s0).nodes = s0.nodes ∧
      EdgesMono s0 (apply_mentions_page page s0) ∧
      ∀ row ∈ page, ∀ a ∈ idxsWhere s0.nodes (nodeLK "Section" "id" row.chunk_id),
        ∀ b ∈ idxsWhere s0.nodes (nodeN row.entity_name),
          hasEdge (apply_mentions_page page s0) a b "MENTIONS" = true := by
  intro page
  induction page with
  | nil => intro s0; exact ⟨rfl, edgesMono_refl s0, by simp⟩
  | cons row rest ih =>
    intro s0
    obtain ⟨r1, r2, r3⟩ := mention_row_facts row s0
    obtain ⟨i1, i2, i3⟩ := ih (apply_mention_row s0 row)
    have hfold : apply_mentions_page (row :: rest) s0
        = apply_mentions_page rest (apply_mention_row s0 row) := rfl
    rw [hfold]
    refine ⟨i1.trans r1, edgesMono_trans r2 i2, ?_⟩
    intro row2 hrow2 a ha b hb
    rcases List.mem_cons.mp hrow2 with hrow2 | hrow2
    · subst hrow2
      exact i2 a b "MENTIONS" (r3 a ha b hb)
    · rw [← r1] at ha hb
      exact i3 row2 hrow2 a ha b hb

theorem mention_phase_facts :
    ∀ (pages : List (List MentionRow)) (s0 : GraphState),
      ((pages.foldl (fun st p => apply_mentions_page p st) s0).nodes = s0.nodes) ∧
      EdgesMono s0 (pages.foldl (fun st p => apply_mentions_page p st) s0) ∧
      ∀ p ∈ pages, ∀ row ∈ p, ∀ a ∈ idxsWhere s0.nodes (nodeLK "Section" "id" row.chunk_id),
        ∀ b ∈ idxsWhere s0.nodes (nodeN row.entity_name),
          hasEdge (pages.foldl (fun st p => apply_mentions_page p st) s0) a b "MENTIONS" = true := by
  intro pages
  induction pages with
  | nil => intro s0; exact ⟨rfl, edgesMono_refl s0, by simp⟩
  | cons p rest ih =>
    intro s0
    obtain ⟨b1, b2, b3⟩ := mention_page_facts p s0
    obtain ⟨i1, i2, i3⟩ := ih (apply_mentions_page p s0)
    rw [List.foldl_cons]
    refine ⟨i1.trans b1, edgesMono_trans b2 i2, ?_⟩
    intro p2 hp2 row hrow a ha b hb
    rcases List.mem_cons.mp hp2 with hp2 | hp2
    · subst hp2
      exact i2 a b "MENTIONS" (b3 row hrow a ha b hb)
    · rw [← b1] at ha hb
      exact i3 p2 hp2 row hrow a ha b hb


theorem safeProps_iff_lookup (ps : Props) :
    SafeProps ps ↔ (lookupProp ps "name" = none ∧ lookupProp ps "id" = none) := by
  constructor
  · intro h
    exact ⟨lookup_none_iff.mpr (fun kv hkv => (h kv hkv).1),
      lookup_none_iff.mpr (fun kv hkv => (h kv hkv).2)⟩
  · intro h kv hkv
    exact ⟨lookup_none_iff.mp h.1 kv hkv, lookup_none_iff.mp h.2 kv hkv⟩

theorem overlay_safe {a b : Props} (ha : SafeProps a) (hb : SafeProps b) :
    SafeProps (overlayProps a b) := by
  refine (safeProps_iff_lookup _).mpr ⟨?_, ?_⟩
  · rw [lookup_overlay_not_mem (fun kv hkv => (hb kv hkv).1)]
    exact ((safeProps_iff_lookup a).mp ha).1
  · rw [lookup_overlay_not_mem (fun kv hkv => (hb kv hkv).2)]
    exact ((safeProps_iff_lookup a).mp ha).2

theorem dedup_safe {results : List ExtractionResult} (hsafe : EntityPropsSafe results) :
    ∀ p ∈ dedupEntities results, SafeProps p.2 := by
  unfold dedupEntities
  refine foldl_inv (fun (acc : List ((String × String) × Props)) => ∀ p ∈ acc, SafeProps p.2)
    ?_ (by simp)
  intro acc res hres hacc
  refine foldl_inv (fun (acc2 : List ((String × String) × Props)) => ∀ p ∈ acc2, SafeProps p.2)
    ?_ hacc
  intro acc2 e he hacc2
  have hesafe : SafeProps e.props := (safeProps_iff_lookup _).mpr (hsafe res hres e he)
  by_cases hkey : acc2.any (fun p => p.1 = (e.name, e.type)) = true
  · rw [if_pos hkey]
    intro p hp
    obtain ⟨q, hq, hpq⟩ := List.mem_map.mp hp
    by_cases hq1 : q.1 = (e.name, e.type)
    · rw [if_pos hq1] at hpq
      rw [← hpq]
      exact overlay_safe (hacc2 q hq) hesafe
    · rw [if_neg hq1] at hpq
      rw [← hpq]
      exact hacc2 q hq
  · rw [if_neg hkey]
    intro p hp
    rcases List.mem_append.mp hp with hp | hp
    · exact hacc2 p hp
    · simp only [List.mem_singleton] at hp
      rw [hp]
      exact hesafe

theorem groups_safe {results : List ExtractionResult} (hsafe : EntityPropsSafe results) :
    ∀ g ∈ entityGroups results, ∀ row ∈ g.2, SafeProps row.props := by
  unfold entityGroups
  have hded := dedup_safe hsafe
  refine foldl_inv (fun (acc : List (String × List EntityRow)) =>
    ∀ g ∈ acc, ∀ row ∈ g.2, SafeProps row.props) ?_ (by simp)
  intro acc p hp hacc
  unfold groupInsert
  by_cases hkey : acc.any (fun g => g.1 = p.1.2) = true
  · rw [if_pos hkey]
    intro g hg row hrow
    obtain ⟨q, hq, hgq⟩ := List.mem_map.mp hg
    by_cases hq1 : q.1 = p.1.2
    · rw [if_pos hq1] at hgq
      rw [← hgq] at hrow
      rcases List.mem_append.mp hrow with hrow | hrow
      · exact hacc q hq row hrow
      · simp only [List.mem_singleton] at hrow
        rw [hrow]
        exact hded p hp
    · rw [if_neg hq1] at hgq
      rw [← hgq] at hrow
      exact hacc q hq row hrow
  · rw [if_neg hkey]
    intro g hg row hrow
    rcases List.mem_append.mp hg with hg | hg
    · exact hacc g hg row hrow
    · simp only [List.mem_singleton] at hg
      rw [hg] at hrow
      simp only [List.mem_singleton] at hrow
      rw [hrow]
      exact hded p hp

theorem establish_assemble
    {docId : String} {chunks : List Chunk} {results : List ExtractionResult}
    {sD sS sE sR w : GraphState}
    (hdoc : DocSat sD docId)
    (hSstab : ∀ l v : String, l ≠ "Section" →
      idxsWhere sS.nodes (nodeLK l "id" v) = idxsWhere sD.nodes (nodeLK l "id" v))
    (hSsat : SectionsSat sS docId chunks)
    (hEkeep : KeepsIdPatterns sS sE)
    (hEedges : sE.edges = sS.edges)
    (hEsat : EntitySat sE (entityGroups results))
    (hRnodes : sR.nodes = sE.nodes)
    (hRmono : EdgesMono sE sR)
    (hRsat : ∀ g ∈ relationGroups results, ∀ r ∈ g.2, ∀ a ∈ nameIdxs sE r.source,
      ∀ b ∈ nameIdxs sE r.target, hasEdge sR a b g.1 = true)
    (hMnodes : w.nodes = sR.nodes)
    (hMmono : EdgesMono sR w)
    (hMsat : ∀ p ∈ chunkPages (mentionsOf results), ∀ row ∈ p,
      ∀ a ∈ idxsWhere sR.nodes (nodeLK "Section" "id" row.chunk_id),
      ∀ b ∈ idxsWhere sR.nodes (nodeN row.entity_name), hasEdge w a b "MENTIONS" = true) :
    DocSat w docId ∧ SectionsSat w docId chunks ∧ EntitySat w (entityGroups results) ∧
    RelationSat w (relationGroups results) ∧ MentionSat w (chunkPages (mentionsOf results)) := by
  have hwE : w.nodes = sE.nodes := hMnodes.trans hRnodes
  have hkeepEw : KeepsIdPatterns sE w := by
    intro l v
    rw [hwE]
  have hkeepWS : KeepsIdPatterns sS w := keepsId_trans hEkeep hkeepEw
  have hmonoSw : EdgesMono sS w :=
    edgesMono_trans (edgesMono_of_eq hEedges) (edgesMono_trans hRmono hMmono)
  refine ⟨?_, ?_, ?_, ?_, ?_⟩
  · unfold DocSat at hdoc ⊢
    rw [hkeepWS "Document" docId, hSstab "Document" docId (by decide)]
    exact hdoc
  · intro row hrow
    obtain ⟨h1, h2⟩ := hSsat row hrow
    constructor
    · intro hne
      rw [hkeepWS "Document" docId] at hne
      rw [hkeepWS "Section" row.id]
      exact h1 hne
    · intro a ha b hb
      rw [hkeepWS "Document" docId] at ha
      rw [hkeepWS "Section" row.id] at hb
      exact hmonoSw a b "HAS_SECTION" (h2 a ha b hb)
  · intro g hg row hrow
    have hpat : idxsWhere w.nodes (nodeLK g.1 "name" row.name)
        = idxsWhere sE.nodes (nodeLK g.1 "name" row.name) := by rw [hwE]
    rw [hpat]
    exact hEsat g hg row hrow
  · intro g hg r hr a ha b hb
    rw [nameIdxs_congr hwE r.source] at ha
    rw [nameIdxs_congr hwE r.target] at hb
    exact hMmono a b g.1 (hRsat g hg r hr a ha b hb)
  · intro p hp row hrow a ha b hb
    rw [hMnodes] at ha hb
    exact hMsat p hp row hrow a ha b hb

theorem build_establishes (docId : String) (chunks : List Chunk)
    (results : List ExtractionResult) (s : GraphState) (hsafe : EntityPropsSafe results) :
    DocSat (build_pure_graph docId chunks results s) docId ∧
    SectionsSat (build_pure_graph docId chunks results s) docId chunks ∧
    EntitySat (build_pure_graph docId chunks results s) (entityGroups results) ∧
    RelationSat (build_pure_graph docId chunks results s) (relationGroups results) ∧
    MentionSat (build_pure_graph docId chunks results s) (chunkPages (mentionsOf results)) := by
  obtain ⟨hdoc, hDgrow, hDedges⟩ := apply_document_post docId s
  obtain ⟨hSgrow, hSstab, hSsec, hSmono, hSsat⟩ :=
    sections_establish docId chunks (apply_document docId s)
  obtain ⟨hEgrow, hEkeep, hEedges, hEsat⟩ :=
    entity_phase_facts (entityGroups results)
      (apply_sections docId chunks (apply_document docId s)) (groups_safe hsafe)
  obtain ⟨hRnodes, hRmono, hRsat⟩ :=
    relation_phase_facts (relationGroups results)
      ((entityGroups results).foldl (fun st g => apply_entity_batch g.1 g.2 st)
        (apply_sections docId chunks (apply_document docId s)))
  obtain ⟨hMnodes, hMmono, hMsat⟩ :=
    mention_phase_facts (chunkPages (mentionsOf results))
      ((relationGroups results).foldl (fun st g => apply_relation_batch g.1 g.2 st)
        ((entityGroups results).foldl (fun st g => apply_entity_batch g.1 g.2 st)
          (apply_sections docId chunks (apply_document docId s))))
  exact establish_assemble hdoc hSstab hSsat hEkeep hEedges hEsat hRnodes hRmono hRsat
    hMnodes hMmono hMsat


theorem replay_all {w : GraphState} {docId : String} {chunks : List Chunk}
    {results : List ExtractionResult}
    (hdoc : DocSat w docId) (hsec : SectionsSat w docId chunks)
    (hent : EntitySat w (entityGroups results))
    (hrel : RelationSat w (relationGroups results))
    (hmen : MentionSat w (chunkPages (mentionsOf results)))
    (hgs : ∀ g ∈ entityGroups results, ∀ row ∈ g.2, SafeProps row.props) :
    StateEquiv w (build_pure_graph docId chunks results w) := by
  have h1 : apply_document docId w = w := document_replay (stateEquiv_refl w) hdoc
  have h2 : StateEquiv w (apply_sections docId chunks (apply_document docId w)) := by
    rw [h1]
    exact sections_replay (stateEquiv_refl w) hsec
  have h3 := entities_replay h2 hent hgs
  have h4 := relations_replay h3 hrel
  have h5 := mentions_replay h4 hmen
  exact h5

/-- C1: graph-write idempotence, corrected. When no entity carries a
`name` or `id` key in its free-form properties, running
`build_pure_graph` a second time with identical inputs leaves the node
and edge counts of the store unchanged (the MERGE patterns all rebind
the rows written by the first run). The safety hypothesis is necessary:
see the counterexample, where a property overwrite of the `name` merge
key makes the second run create a duplicate entity node. -/
theorem claim_C1 (docId : String) (chunks : List Chunk) (results : List ExtractionResult)
    (s : GraphState) (hsafe : EntityPropsSafe results) :
    nodeCount (build_pure_graph docId chunks results
        (build_pure_graph docId chunks results s))
      = nodeCount (build_pure_graph docId chunks results s) ∧
    edgeCount (build_pure_graph docId chunks results
        (build_pure_graph docId chunks results s))
      = edgeCount (build_pure_graph docId chunks results s) := by
  obtain ⟨hdoc, hsec, hent, hrel, hmen⟩ := build_establishes docId chunks results s hsafe
  have h := replay_all hdoc hsec hent hrel hmen (groups_safe hsafe)
  have hn : List.Forall₂ nodeKeyEq (build_pure_graph docId chunks results s).nodes
      (build_pure_graph docId chunks results (build_pure_graph docId chunks results s)).nodes :=
    h.1
  have he : List.Forall₂ edgeKeyEq (build_pure_graph docId chunks results s).edges
      (build_pure_graph docId chunks results (build_pure_graph docId chunks results s)).edges :=
    h.2
  exact ⟨(List.Forall₂.length_eq hn).symm, (List.Forall₂.length_eq he).symm⟩

/-- C1 witness: a concrete safe batch (duplicate entity mention plus a
relation) on which both runs agree on the node count. -/
theorem claim_C1_witness :
    EntityPropsSafe exW ∧
    nodeCount (build_pure_graph "doc1" [{ id := "c1", text := "t" }] exW
        (build_pure_graph "doc1" [{ id := "c1", text := "t" }] exW emptyGraph))
      = nodeCount (build_pure_graph "doc1" [{ id := "c1", text := "t" }] exW emptyGraph) :=
  ⟨by decide, (claim_C1 "doc1" [{ id := "c1", text := "t" }] exW emptyGraph (by decide)).1⟩

/-- C1 counterexample to the claim as stated: an entity whose free-form
properties contain a `name` key. `SET e += props` overwrites the merge
key, so the second run's `MERGE (e:T {name: "A"})` no longer matches
the stored node and creates a duplicate (3 nodes after two runs versus
2 after one). -/
theorem claim_C1_counterexample :
    nodeCount (build_pure_graph "d" [] exC1 (build_pure_graph "d" [] exC1 emptyGraph))
      ≠ nodeCount (build_pure_graph "d" [] exC1 emptyGraph) := by decide


theorem caught_fold_filter {α : Type} (failOn : QueryTag → Bool) (tag : α → QueryTag)
    (eff : α → GraphState → GraphState) :
    ∀ (l : List α) (s0 : GraphState),
      l.foldl (fun st g => caught (queryE failOn (tag g) (eff g) st) st) s0
        = (l.filter (fun g => !failOn (tag g))).foldl (fun st g => eff g st) s0 := by
  intro l
  induction l with
  | nil => intro s0; rfl
  | cons g rest ih =>
    intro s0
    rw [List.foldl_cons]
    by_cases hf : failOn (tag g) = true
    · have hfil : (g :: rest).filter (fun g2 => !failOn (tag g2))
          = rest.filter (fun g2 => !failOn (tag g2)) := by
        simp [List.filter, hf]
      have hc : caught (queryE failOn (tag g) (eff g) s0) s0 = s0 := by
        simp [queryE, caught, hf]
      rw [hfil, hc]
      exact ih s0
    · have hf2 : failOn (tag g) = false := by
        cases h : failOn (tag g)
        · rfl
        · exact absurd h hf
      have hfil : (g :: rest).filter (fun g2 => !failOn (tag g2))
          = g :: rest.filter (fun g2 => !failOn (tag g2)) := by
        simp [List.filter, hf2]
      have hc : caught (queryE failOn (tag g) (eff g) s0) s0 = eff g s0 := by
        simp [queryE, caught, hf2]
      rw [hfil, List.foldl_cons, hc]
      exact ih (eff g s0)

theorem mentionsLoopE_eq (failOn : QueryTag → Bool) :
    ∀ (pages : List (List MentionRow)) (i : Nat) (s0 : GraphState),
      mentionsLoopE failOn i pages s0
        = (pagesUpToFailure failOn i pages).foldl (fun st p => apply_mentions_page p st) s0 := by
  intro pages
  induction pages with
  | nil => intro i s0; rfl
  | cons p rest ih =>
    intro i s0
    by_cases hf : failOn (QueryTag.mentionsPage i) = true
    · simp [mentionsLoopE, pagesUpToFailure, hf]
    · have hf2 : failOn (QueryTag.mentionsPage i) = false := by
        cases h : failOn (QueryTag.mentionsPage i)
        · rfl
        · exact absurd h hf
      simp only [mentionsLoopE, pagesUpToFailure, hf2, if_false, Bool.false_eq_true,
        List.foldl_cons]
      exact ih (i + 1) (apply_mentions_page p s0)

theorem batch_write_eq (failOn : QueryTag → Bool) (results : List ExtractionResult)
    (s : GraphState) :
    batch_write_E failOn results s = batch_write_skip failOn results s := by
  unfold batch_write_E batch_write_skip
  rw [caught_fold_filter failOn (fun (g : String × List EntityRow) => QueryTag.entityBatch g.1)
    (fun (g : String × List EntityRow) => apply_entity_batch g.1 g.2)]
  rw [caught_fold_filter failOn (fun (g : String × List Relation) => QueryTag.relationBatch g.1)
    (fun (g : String × List Relation) => apply_relation_batch g.1 g.2)]
  rw [mentionsLoopE_eq failOn]

/-- C7: partial-failure isolation of the writer. When the document and
section queries succeed, the call returns `ok` and the store holds
exactly the effects of every non-failing entity batch, every
non-failing relation batch, and the mentions pages up to the first
failing page: failing batches are skipped without aborting their
siblings. A failure of the document query, or of the section query, is
re-raised to the caller. -/
theorem claim_C7 (failOn : QueryTag → Bool) (docId : String) (chunks : List Chunk)
    (results : List ExtractionResult) (s : GraphState) :
    (failOn QueryTag.doc = false → failOn QueryTag.sections = false →
      build_pure_graph_E failOn docId chunks results s
        = .ok (batch_write_skip failOn results
            (apply_sections docId chunks (apply_document docId s)))) ∧
    (failOn QueryTag.doc = true →
      build_pure_graph_E failOn docId chunks results s = .error "query failed") ∧
    (failOn QueryTag.sections = true →
      build_pure_graph_E failOn docId chunks results s = .error "query failed") := by
  refine ⟨?_, ?_, ?_⟩
  · intro hd hs
    unfold build_pure_graph_E
    have h1 : queryE failOn QueryTag.doc (apply_document docId) s
        = .ok (apply_document docId s) := by
      simp [queryE, hd]
    have h2 : queryE failOn QueryTag.sections (apply_sections docId chunks)
        (apply_document docId s)
        = .ok (apply_sections docId chunks (apply_document docId s)) := by
      simp [queryE, hs]
    rw [h1]
    have hb1 : ((Except.ok (apply_document docId s) : Except String GraphState) >>=
        fun s1 => queryE failOn QueryTag.sections (apply_sections docId chunks) s1 >>=
          fun s2 => Except.ok (batch_write_E failOn results s2))
        = (queryE failOn QueryTag.sections (apply_sections docId chunks)
            (apply_document docId s) >>=
          fun s2 => Except.ok (batch_write_E failOn results s2)) := rfl
    rw [hb1, h2]
    have hb2 : ((Except.ok (apply_sections docId chunks (apply_document docId s)) :
        Except String GraphState) >>=
        fun s2 => Except.ok (batch_write_E failOn results s2))
        = Except.ok (batch_write_E failOn results
            (apply_sections docId chunks (apply_document docId s))) := rfl
    rw [hb2, batch_write_eq]
  · intro hd
    unfold build_pure_graph_E
    have h1 : queryE failOn QueryTag.doc (apply_document docId) s
        = .error "query failed" := by
      simp [queryE, hd]
    rw [h1]
    rfl
  · intro hs
    cases hd : failOn QueryTag.doc with
    | true =>
      unfold build_pure_graph_E
      have h1 : queryE failOn QueryTag.doc (apply_document docId) s
          = .error "query failed" := by
        simp [queryE, hd]
      rw [h1]
      rfl
    | false =>
      unfold build_pure_graph_E
      have h1 : queryE failOn QueryTag.doc (apply_document docId) s
          = .ok (apply_document docId s) := by
        simp [queryE, hd]
      have h2 : queryE failOn QueryTag.sections (apply_sections docId chunks)
          (apply_document docId s) = .error "query failed" := by
        simp [queryE, hs]
      rw [h1]
      have hb1 : ((Except.ok (apply_document docId s) : Except String GraphState) >>=
          fun s1 => queryE failOn QueryTag.sections (apply_sections docId chunks) s1 >>=
            fun s2 => Except.ok (batch_write_E failOn results s2))
          = (queryE failOn QueryTag.sections (apply_sections docId chunks)
              (apply_document docId s) >>=
            fun s2 => Except.ok (batch_write_E failOn results s2)) := rfl
      rw [hb1, h2]
      rfl

/-- C7 witness: with the oracle failing exactly the entity batches the
call still returns `ok` with the skip semantics; with the oracle
failing the document query it returns the error. -/
theorem claim_C7_witness :
    (build_pure_graph_E failEnt "doc1" [{ id := "c1", text := "t" }] exW emptyGraph
      = .ok (batch_write_skip failEnt exW
          (apply_sections "doc1" [{ id := "c1", text := "t" }]
            (apply_document "doc1" emptyGraph)))) ∧
    (build_pure_graph_E (fun t => t == QueryTag.doc) "doc1" [] exW emptyGraph
      = .error "query failed") :=
  ⟨(claim_C7 failEnt "doc1" [{ id := "c1", text := "t" }] exW emptyGraph).1 rfl rfl,
   (claim_C7 (fun t => t == QueryTag.doc) "doc1" [] exW emptyGraph).2.1 rfl⟩


theorem dedup_keys_nodup (results : List ExtractionResult) :
    ((dedupEntities results).map Prod.fst).Nodup := by
  unfold dedupEntities
  refine foldl_inv (fun (acc : List ((String × String) × Props)) => (acc.map Prod.fst).Nodup)
    ?_ (by simp)
  intro acc res hres hacc
  refine foldl_inv (fun (acc2 : List ((String × String) × Props)) => (acc2.map Prod.fst).Nodup)
    ?_ hacc
  intro acc2 e he hacc2
  by_cases hkey : acc2.any (fun p => p.1 = (e.name, e.type)) = true
  · rw [if_pos hkey]
    have hmap : (acc2.map (fun p => if p.1 = (e.name, e.type)
        then (p.1, overlayProps p.2 e.props) else p)).map Prod.fst = acc2.map Prod.fst := by
      rw [List.map_map]
      refine List.map_congr_left ?_
      intro p hp
      by_cases hp1 : p.1 = (e.name, e.type)
      · simp [hp1]
      · simp [hp1]
    rw [hmap]
    exact hacc2
  · rw [if_neg hkey]
    rw [List.map_append, List.nodup_append]
    refine ⟨hacc2, List.nodup_singleton _, ?_⟩
    intro k hk hk2
    simp only [List.map_cons, List.map_nil, List.mem_singleton] at hk2
    obtain ⟨p, hp, hpk⟩ := List.mem_map.mp hk
    have hp1 : p.1 = (e.name, e.type) := by rw [hpk, hk2]
    exact absurd (List.any_eq_true.mpr ⟨p, hp, by simp [hp1]⟩) hkey

/-- C9: canonical-entity key invariant, corrected. The canonical-name
map of `canonicalize_entities` is keyed by the normalized
(lowercased, stripped) name alone, not by `(normalized_name, type)`:
every output entity name is the first-seen literal name stored under
its normalized form, independent of the entity type, so two mentions
whose names normalize alike but whose types differ do receive the same
canonical name. Distinctness survives only downstream: the writer
dedupes on the `(canonical name, type)` pair, and those keys are
pairwise distinct, so the differently-typed mentions still become
separate entity rows. -/
theorem claim_C9 (rs : List ExtractionResult) (h : RelationsWF rs) :
    canonicalize_entities rs = .ok (canonRefAux [] rs) ∧
    List.Forall₂ (fun res res2 =>
      List.Forall₂ (fun e e2 => e2.name = canonName (batchEntityMap rs) e.name
        ∧ e2.type = e.type ∧ e2.props = e.props) res.entities res2.entities)
      rs (canonRefAux [] rs) ∧
    ((dedupEntities (canonRefAux [] rs)).map Prod.fst).Nodup :=
  ⟨canonicalize_spec h, canonRefAux_entities [] rs, dedup_keys_nodup _⟩

/-- C9 witness: on the concrete batch the deduplicated writer keys are
pairwise distinct. -/
theorem claim_C9_witness :
    ((dedupEntities (canonRefAux [] exW)).map Prod.fst).Nodup :=
  (claim_C9 exW (by decide)).2.2

/-- C9 counterexample to the claim as stated: `"Google"` tagged PERSON
and `"google"` tagged ORG normalize alike; the second mention's name is
rewritten to the first-seen literal `"Google"` even though its type
differs, so the two mentions are collapsed to one canonical name. -/
theorem claim_C9_counterexample :
    Except.map (fun rs2 => rs2.map (fun res => res.entities.map (fun e => (e.name, e.type))))
      (canonicalize_entities exC9)
      = Except.ok [[("Google", "PERSON"), ("Google", "ORG")]] := by rfl


theorem filterMap_get_range {α β : Type} (g : α → β) :
    ∀ (l : List α), (List.range l.length).filterMap (fun i => (l.get? i).map g) = l.map g := by
  intro l
  induction l with
  | nil => rfl
  | cons a rest ih =>
    have h0 : (((a :: rest).get? 0).map g) = some (g a) := rfl
    rw [List.length_cons, List.range_succ_eq_map, List.filterMap_cons, h0, List.filterMap_map]
    have hcomp : ((fun i => (((a :: rest).get? i).map g)) ∘ Nat.succ)
        = (fun i => ((rest.get? i).map g)) := rfl
    rw [hcomp, ih, List.map_cons]

/-- C3: extraction fault isolation, corrected. The inner layer really
does degrade: whenever the LLM call for a chunk fails, its payload is
the empty entities/relations pair, and the worker tags every produced
result with its originating chunk id, so for any completion order the
batch output is a permutation of the per-chunk results and each element
carries its chunk id. But a task that raises at `future.result()` is
only logged: its slot is absent from the returned list (see the
counterexample), so one result per input chunk is guaranteed only when
no task raises. -/
theorem claim_C3 (llm : String → Except String (List Entity × List Relation))
    (raisesAt : Nat → Bool) (order : List Nat) (chunk_texts chunk_ids : List String)
    (horder : order.Perm (List.range (chunk_texts.zip chunk_ids).length)) :
    (extract_from_chunks llm raisesAt order chunk_texts chunk_ids).Perm
      (extract_from_chunks llm raisesAt
        (List.range (chunk_texts.zip chunk_ids).length) chunk_texts chunk_ids) ∧
    (∀ r ∈ extract_from_chunks llm raisesAt order chunk_texts chunk_ids,
      ∃ tc ∈ chunk_texts.zip chunk_ids,
        r = process_chunk_extraction llm tc ∧ r.chunk_id = some tc.2) ∧
    ((∀ i, raisesAt i = false) →
      (extract_from_chunks llm raisesAt order chunk_texts chunk_ids).Perm
        ((chunk_texts.zip chunk_ids).map (process_chunk_extraction llm))) ∧
    (∀ text e, llm text = .error e → extract_entities_and_relations llm text = ([], [])) := by
  refine ⟨?_, ?_, ?_, ?_⟩
  · unfold extract_from_chunks
    exact List.Perm.filterMap _ horder
  · intro r hr
    unfold extract_from_chunks at hr
    obtain ⟨i, hi, hfi⟩ := List.mem_filterMap.mp hr
    cases hg : (chunk_texts.zip chunk_ids).get? i with
    | none =>
      simp only [hg] at hfi
      exact Option.noConfusion hfi
    | some data =>
      simp only [hg] at hfi
      by_cases hra : raisesAt i = true
      · rw [if_pos hra] at hfi
        exact absurd hfi (by simp)
      · rw [if_neg hra] at hfi
        have hr2 : process_chunk_extraction llm data = r := by
          injection hfi
        refine ⟨data, List.get?_mem hg, hr2.symm, ?_⟩
        rw [← hr2]
        rfl
  · intro hall
    have heq : ∀ (ord : List Nat), extract_from_chunks llm raisesAt ord chunk_texts chunk_ids
        = ord.filterMap (fun i => ((chunk_texts.zip chunk_ids).get? i).map
            (process_chunk_extraction llm)) := by
      intro ord
      unfold extract_from_chunks
      refine List.filterMap_congr ?_
      intro i hi
      cases hg : (chunk_texts.zip chunk_ids).get? i with
      | none => rfl
      | some data => simp [hall i]
    rw [heq order, ← filterMap_get_range (process_chunk_extraction llm) (chunk_texts.zip chunk_ids)]
    exact List.Perm.filterMap _ horder
  · intro text e he
    unfold extract_entities_and_relations
    rw [he]

/-- C3 witness: with a reversed completion order and no raising task,
the batch output is a permutation of the tagged per-chunk results. -/
theorem claim_C3_witness :
    (extract_from_chunks (fun _ => Except.ok ([], [])) (fun _ => false) [1, 0]
        ["t0", "t1"] ["c0", "c1"]).Perm
      ((["t0", "t1"].zip ["c0", "c1"]).map
        (process_chunk_extraction (fun _ => Except.ok ([], [])))) :=
  (claim_C3 (fun _ => Except.ok ([], [])) (fun _ => false) [1, 0] ["t0", "t1"] ["c0", "c1"]
    (by decide)).2.2.1 (fun _ => rfl)

/-- C3 counterexample to the claim as stated: when the task for the
first of two chunks raises, the returned list has one element, not two,
and no element is tagged with the failed chunk id — the failed slot is
absent rather than an empty result. -/
theorem claim_C3_counterexample :
    (extract_from_chunks (fun _ => Except.ok ([], [])) (fun i => i == 0) [0, 1]
        ["t0", "t1"] ["c0", "c1"]).length = 1 ∧
    ∀ r ∈ extract_from_chunks (fun _ => Except.ok ([], [])) (fun i => i == 0) [0, 1]
        ["t0", "t1"] ["c0", "c1"], r.chunk_id ≠ some "c0" := by decide


theorem process_docs_loop_spec (orc : PipelineOracle) :
    ∀ (docs : List String) (i acc : Nat) (g : GraphState),
      (process_docs_loop orc docs i acc g).2.2 = firstStageError orc g docs i ∧
      (firstStageError orc g docs i = none →
        ∃ m, chunkCountsRef orc docs = some m ∧
          (process_docs_loop orc docs i acc g).1 = acc + m) := by
  intro docs
  induction docs with
  | nil =>
    intro i acc g
    exact ⟨rfl, fun _ => ⟨0, rfl, rfl⟩⟩
  | cons d rest ih =>
    intro i acc g
    cases hc : orc.chunk_text (clean_text d) with
    | error e =>
      have hfs : firstStageError orc g (d :: rest) i = some e := by
        simp only [firstStageError, hc]
      refine ⟨?_, ?_⟩
      · simp only [process_docs_loop, firstStageError, hc]
      · intro hnone
        rw [hfs] at hnone
        exact Option.noConfusion hnone
    | ok chunks =>
      cases hcan : canonicalize_entities (orc.extract_kg chunks) with
      | error e =>
        have hfs : firstStageError orc g (d :: rest) i = some e := by
          simp only [firstStageError, hc, hcan]
        refine ⟨?_, ?_⟩
        · simp only [process_docs_loop, firstStageError, hc, hcan]
        · intro hnone
          rw [hfs] at hnone
          exact Option.noConfusion hnone
      | ok rs2 =>
        cases hval : validate_relations rs2 with
        | error e =>
          have hfs : firstStageError orc g (d :: rest) i = some e := by
            simp only [firstStageError, hc, hcan, hval]
          refine ⟨?_, ?_⟩
          · simp only [process_docs_loop, firstStageError, hc, hcan, hval]
          · intro hnone
            rw [hfs] at hnone
            exact Option.noConfusion hnone
        | ok rs3 =>
          cases hb : build_pure_graph_E orc.failOn (orc.doc_id i) chunks rs3 g with
          | error e =>
            have hfs : firstStageError orc g (d :: rest) i = some e := by
              simp only [firstStageError, hc, hcan, hval, hb]
            refine ⟨?_, ?_⟩
            · simp only [process_docs_loop, firstStageError, hc, hcan, hval, hb]
            · intro hnone
              rw [hfs] at hnone
              exact Option.noConfusion hnone
          | ok g2 =>
            obtain ⟨iha, ihb⟩ := ih (i + 1) (acc + chunks.length) g2
            have hfs : firstStageError orc g (d :: rest) i
                = firstStageError orc g2 rest (i + 1) := by
              simp only [firstStageError, hc, hcan, hval, hb]
            refine ⟨?_, ?_⟩
            · simp only [process_docs_loop, hc, hcan, hval, hb, hfs]
              exact iha
            · intro hnone
              rw [hfs] at hnone
              obtain ⟨m, hm, hcount⟩ := ihb hnone
              refine ⟨chunks.length + m, ?_, ?_⟩
              · simp only [chunkCountsRef, hc, hm, Option.map]
              · simp only [process_docs_loop, hc, hcan, hval, hb]
                rw [hcount]
                omega

/-- C6: orchestrator error translation. `process_documents` always
returns a structured result whose status is `success` or `error`; the
error field carries exactly the first stage exception's message (and is
`none` precisely on success); `total_documents` is always the input
count; and on success `total_chunks` is the sum of the per-document
chunk counts. -/
theorem claim_C6 (orc : PipelineOracle) (documents : List String) (g : GraphState) :
    ((process_documents orc documents g).status = "success" ∨
      (process_documents orc documents g).status = "error") ∧
    (process_documents orc documents g).error = firstStageError orc g documents 0 ∧
    ((process_documents orc documents g).status = "error" ↔
      firstStageError orc g documents 0 ≠ none) ∧
    (process_documents orc documents g).total_documents = documents.length ∧
    ((process_documents orc documents g).status = "success" →
      chunkCountsRef orc documents = some (process_documents orc documents g).total_chunks) := by
  obtain ⟨ha, hb⟩ := process_docs_loop_spec orc documents 0 0 g
  cases herr : (process_docs_loop orc documents 0 0 g).2.2 with
  | none =>
    have hfs : firstStageError orc g documents 0 = none := by rw [← ha, herr]
    have hP : process_documents orc documents g
        = { status := "success", total_documents := documents.length,
            total_chunks := (process_docs_loop orc documents 0 0 g).1, error := none } := by
      simp only [process_documents, herr]
    rw [hP]
    refine ⟨Or.inl rfl, hfs.symm, ?_, rfl, ?_⟩
    · constructor
      · intro hse
        have hse2 : "success" = "error" := hse
        exact absurd hse2 (by decide)
      · intro hne
        exact absurd hfs hne
    · intro _
      obtain ⟨m, hm, hcount⟩ := hb hfs
      show chunkCountsRef orc documents = some ((process_docs_loop orc documents 0 0 g).1)
      rw [hm, hcount, Nat.zero_add]
  | some e =>
    have hfs : firstStageError orc g documents 0 = some e := by rw [← ha, herr]
    have hP : process_documents orc documents g
        = { status := "error", total_documents := documents.length,
            total_chunks := (process_docs_loop orc documents 0 0 g).1, error := some e } := by
      simp only [process_documents, herr]
    rw [hP]
    refine ⟨Or.inr rfl, hfs.symm, ?_, rfl, ?_⟩
    · constructor
      · intro _
        rw [hfs]
        simp
      · intro _
        rfl
    · intro hse
      have hse2 : "error" = "success" := hse
      exact absurd hse2 (by decide)

/-- C6 witness: a fully succeeding run is reported as
`success` with the reference chunk count. -/
theorem claim_C6_witness :
    chunkCountsRef orcW ["Hello"]
      = some (process_documents orcW ["Hello"] emptyGraph).total_chunks :=
  (claim_C6 orcW ["Hello"] emptyGraph).2.2.2.2 (by rfl)


/-- C8: retrieval degradation. A connection failure or a failure of
either query makes `retrieve_subgraph` return the empty list and the
search tool return the no-information sentinel; queries that yield no
rows do the same; and the tool always answers with a non-empty list of
strings — in the embedding both functions are total, so no exception
reaches the caller. -/
theorem claim_C8 (orc : RetrievalOracle) :
    (∀ e, orc.connect = .error e → retrieve_subgraph orc = [] ∧
      search_knowledge_graph orc
        = ["No relevant information found in the knowledge graph."]) ∧
    (∀ e, orc.queryGraph = .error e → retrieve_subgraph orc = [] ∧
      search_knowledge_graph orc
        = ["No relevant information found in the knowledge graph."]) ∧
    (∀ e, orc.queryText = .error e → retrieve_subgraph orc = [] ∧
      search_knowledge_graph orc
        = ["No relevant information found in the knowledge graph."]) ∧
    (orc.queryGraph = .ok [] → orc.queryText = .ok [] →
      retrieve_subgraph orc = [] ∧
      search_knowledge_graph orc
        = ["No relevant information found in the knowledge graph."]) ∧
    search_knowledge_graph orc ≠ [] := by
  refine ⟨?_, ?_, ?_, ?_, ?_⟩
  · intro e he
    have hr : retrieve_subgraph orc = [] := by
      simp only [retrieve_subgraph, he]
    exact ⟨hr, by simp only [search_knowledge_graph, hr]⟩
  · intro e he
    have hr : retrieve_subgraph orc = [] := by
      cases hc : orc.connect with
      | error e2 => simp only [retrieve_subgraph, hc]
      | ok u => simp only [retrieve_subgraph, hc, he]
    exact ⟨hr, by simp only [search_knowledge_graph, hr]⟩
  · intro e he
    have hr : retrieve_subgraph orc = [] := by
      cases hc : orc.connect with
      | error e2 => simp only [retrieve_subgraph, hc]
      | ok u =>
        cases hg : orc.queryGraph with
        | error e3 => simp only [retrieve_subgraph, hc, hg]
        | ok rows => simp only [retrieve_subgraph, hc, hg, he]
    exact ⟨hr, by simp only [search_knowledge_graph, hr]⟩
  · intro hg ht
    have hr : retrieve_subgraph orc = [] := by
      cases hc : orc.connect with
      | error e2 => simp only [retrieve_subgraph, hc]
      | ok u => simp [retrieve_subgraph, hc, hg, ht]
    exact ⟨hr, by simp only [search_knowledge_graph, hr]⟩
  · cases hr : retrieve_subgraph orc with
    | nil =>
      simp only [search_knowledge_graph, hr]
      simp
    | cons r rs =>
      simp only [search_knowledge_graph, hr]
      simp

/-- C8 witness: a reachable store whose queries yield no rows gives the
empty retrieval and the sentinel answer. -/
theorem claim_C8_witness :
    retrieve_subgraph orcE = [] ∧
    search_knowledge_graph orcE
      = ["No relevant information found in the knowledge graph."] :=
  (claim_C8 orcE).2.2.2.1 rfl rfl

end KGRag
